import Mathlib

/-!
Shallow embedding of the Semi amalgamation script (src/amalgamate.py).

Text lines and file paths are modelled as lists of characters; the Python
regular expressions are translated into executable matching functions on
those lists.  The filesystem is modelled as an association list from
canonical absolute paths to raw file contents (symlink-free, so that
pathlib resolution is the lexical normalisation of `.` and `..`
components).  The recursive functions of the script (the sorter's DFS and
the discovery work-list loop) are encoded with an explicit fuel
parameter; theorems either discharge the fuel from an upper bound or
quantify over it.
-/

namespace Amalgamate

/-- A line of text, as a list of characters. -/
abbrev Line := List Char

/-- A file path, as a list of characters. -/
abbrev PathT := List Char

/-- Python whitespace characters, the class matched by the regex token
for whitespace and stripped by the string strip and rstrip methods. -/
def isPyWhite (c : Char) : Bool :=
  c = ' ' || c = '\t' || c = '\n' || c = '\r' || c = '\x0c' || c = '\x0b'

/-- Python str.rstrip: remove trailing whitespace. -/
def rstripLine (l : Line) : Line :=
  (l.reverse.dropWhile isPyWhite).reverse

/-- Python str.strip: remove leading and trailing whitespace. -/
def pyStrip (l : Line) : Line :=
  (l.dropWhile isPyWhite).reverse.dropWhile isPyWhite |>.reverse

/-- Boolean prefix test on character lists. -/
def startsWithL : List Char → List Char → Bool
  | [], _ => true
  | _ :: _, [] => false
  | a :: as, b :: bs => a = b && startsWithL as bs

/-- Boolean suffix test on character lists (Python str.endswith). -/
def endsWithL (suf l : List Char) : Bool :=
  startsWithL suf.reverse l.reverse

/-- A line whose strip is empty, i.e. blank or whitespace-only. -/
def blankLine (l : Line) : Bool :=
  decide (pyStrip l = [])

/-- First character is whitespace; encodes that a greedy whitespace-plus
regex token succeeds at this position. -/
def headIsWhite : Line → Bool
  | [] => false
  | c :: _ => isPyWhite c

/-- Characters allowed in a guard name by the regex class of uppercase
letters, digits and underscore. -/
def isGuardChar (c : Char) : Bool :=
  c.isUpper || c.isDigit || c = '_'

/-- Whether a candidate guard name matches the guard-name regex: an
uppercase letter, then uppercase letters, digits or underscores, ending
in the two characters underscore H. -/
def guardOk : Line → Bool
  | [] => false
  | c :: cs => c.isUpper && (c :: cs).all isGuardChar && endsWithL ['_', 'H'] (c :: cs)

/-- Match of the IFNDEF_PATTERN regex against the stripped line, returning
the captured guard name.  The pattern anchors at the start, requires the
literal ifndef keyword, at least one whitespace, a guard name, and then
only optional whitespace up to the end (vacuous after stripping). -/
def matchIfndef (l : Line) : Option Line :=
  let s := pyStrip l
  if startsWithL "#ifndef".data s then
    let r := s.drop 7
    if headIsWhite r then
      let g := r.dropWhile isPyWhite
      if guardOk g then some g else none
    else none
  else none

/-- Match of the define-line regex built in strip_include_guards: the
literal define keyword, at least one whitespace, the exact guard name,
then only optional whitespace up to the end of the stripped line. -/
def matchDefine (l : Line) (g : Line) : Bool :=
  let s := pyStrip l
  startsWithL "#define".data s &&
    headIsWhite (s.drop 7) &&
    decide ((s.drop 7).dropWhile isPyWhite = g)

/-- Match of LOCAL_INCLUDE_PATTERN against the stripped line, returning the
captured include path: the literal include keyword, at least one
whitespace, a double quote, one or more non-quote characters, and a
closing double quote (trailing text is allowed, the pattern is not
anchored at the end). -/
def matchLocalInclude (l : Line) : Option Line :=
  let s := pyStrip l
  if startsWithL "#include".data s then
    let r := s.drop 8
    if headIsWhite r then
      match r.dropWhile isPyWhite with
      | '"' :: rest =>
        let grp := rest.takeWhile (fun c => decide (c ≠ '"'))
        if grp.isEmpty then none
        else if grp.length < rest.length then some grp else none
      | _ => none
    else none
  else none

/-- Error cases of strip_include_guards; all are raised as ValueError in
the source, the MalformedGuard failure family of the specification. -/
inductive GuardError where
  | noIfndef
  | missingDefine
  | wrongDefine
  | missingEndif
  | notEndif
deriving DecidableEq

/-- Forward scan for the first line matching the ifndef pattern; returns
the captured guard and the lines strictly after the matching line. -/
def findGuardSplit : List Line → Option (Line × List Line)
  | [] => none
  | l :: ls =>
    match matchIfndef l with
    | some g => some (g, ls)
    | none => findGuardSplit ls

/-- The part of strip_include_guards after the ifndef line has been found:
check the define line, then scan backwards for the last non-blank line,
which must start with the literal endif keyword. -/
def stripAfter (g : Line) (rest : List Line) : Except GuardError (List Line) :=
  match rest with
  | [] => Except.error GuardError.missingDefine
  | dl :: tl =>
    if matchDefine dl g then
      match tl.reverse.dropWhile blankLine with
      | [] => Except.error GuardError.missingEndif
      | el :: body =>
        if startsWithL "#endif".data (pyStrip el) then Except.ok body.reverse
        else Except.error GuardError.notEndif
    else Except.error GuardError.wrongDefine

/-- Embedding of strip_include_guards: for header paths, locate the first
valid ifndef line, require the matching define on the next line and an
endif as the last non-blank line, and return the lines strictly between
define and endif; non-header paths are returned unchanged. -/
def strip_include_guards (lines : List Line) (file_path : PathT) :
    Except GuardError (List Line) :=
  if endsWithL ['.', 'h'] file_path then
    match findGuardSplit lines with
    | none => Except.error GuardError.noIfndef
    | some (g, rest) => stripAfter g rest
  else Except.ok lines

/-- Embedding of remove_local_includes: keep exactly the lines whose strip
does not match the local-include pattern. -/
def remove_local_includes (lines : List Line) : List Line :=
  lines.filter (fun l => (matchLocalInclude l).isNone)

/-- The copyright banner lines filtered out at load time. -/
def COPYRIGHT_LINES : List Line :=
  ["// Copyright (c) 2025 Ian Chen".data,
   "// SPDX-License-Identifier: MPL-2.0".data]

/-- The line-reading loop of read_file: right-strip every raw line, and
while still in the leading block, drop copyright lines and blank lines;
the first other line ends the leading block. -/
def loadGo : Bool → List Line → List Line
  | _, [] => []
  | skip, r :: rs =>
    let l := rstripLine r
    if skip && (decide (l ∈ COPYRIGHT_LINES) || l.isEmpty) then loadGo true rs
    else l :: loadGo false rs

/-- Content lines kept from a raw file: read_file's per-line processing. -/
def loadLines (raw : List Line) : List Line :=
  loadGo true raw

/-- A filesystem: an association list from canonical absolute paths to the
raw lines of existing files. -/
abbrev FS := List (PathT × List Line)

/-- Lookup of a path in the filesystem. -/
def fsLookup : FS → PathT → Option (List Line)
  | [], _ => none
  | (q, c) :: rest, p => if q = p then some c else fsLookup rest p

/-- Existence test, the model of os.path.exists on canonical paths. -/
def fexists (fs : FS) (p : PathT) : Bool :=
  (fsLookup fs p).isSome

/-- Embedding of FileNode: canonical path, content lines, and the
dependency set stored as an insertion-ordered duplicate-free list. -/
structure FileNode where
  path : PathT
  lines : List Line
  dependencies : List PathT
deriving DecidableEq

/-- Embedding of read_file: load and filter the content when the file
exists; on a missing file the FileNotFoundError is caught and an
empty-content node is returned. -/
def read_file (fs : FS) (p : PathT) : FileNode :=
  match fsLookup fs p with
  | some raw => { path := p, lines := loadLines raw, dependencies := [] }
  | none => { path := p, lines := [], dependencies := [] }

/-- Whether read_file prints its missing-file warning, i.e. takes the
FileNotFoundError branch. -/
def read_file_warns (fs : FS) (p : PathT) : Bool :=
  (fsLookup fs p).isNone

/-- Header-kind test, the endswith check used for FileNode.is_header and
inside strip_include_guards. -/
def isHeaderPath (p : PathT) : Bool :=
  endsWithL ['.', 'h'] p

/-- Split a path string at slashes into components. -/
def splitPathAux : PathT → PathT → List PathT
  | [], acc => [acc.reverse]
  | c :: cs, acc => if c = '/' then acc.reverse :: splitPathAux cs [] else splitPathAux cs (c :: acc)

/-- Components of a path string; a leading slash yields a leading empty
component, which path normalisation discards. -/
def splitPath (p : PathT) : List PathT :=
  splitPathAux p []

/-- Lexical normalisation of path components as performed by pathlib
resolution on a symlink-free tree: empty and current-directory components
vanish, and a parent-directory component removes the previous component
(at the root it is a no-op). -/
def normFold (comps : List PathT) : List PathT :=
  (comps.foldl
    (fun st c =>
      if c.isEmpty || decide (c = ['.']) then st
      else if decide (c = ['.', '.']) then st.tail
      else c :: st) []).reverse

/-- Render an absolute path from clean components. -/
def renderAbs (comps : List PathT) : PathT :=
  if comps.isEmpty then ['/'] else comps.foldl (fun acc c => acc ++ '/' :: c) []

/-- The pathlib slash operator: an absolute right operand replaces the
left one, otherwise the two are joined with a separator. -/
def pjoin (dir rel : PathT) : PathT :=
  match rel with
  | '/' :: _ => rel
  | _ => dir ++ '/' :: rel

/-- Join then resolve: the model of joining with the pathlib slash
operator followed by resolution on a symlink-free filesystem. -/
def joinResolve (dir rel : PathT) : PathT :=
  renderAbs (normFold (splitPath (pjoin dir rel)))

/-- The pathlib parent of an absolute path: drop the final component. -/
def parentPath (p : PathT) : PathT :=
  renderAbs (((splitPath p).filter (fun c => !c.isEmpty)).dropLast)

/-- A canonical absolute path: rendered from components that are
nonempty and free of current-directory and parent-directory markers. -/
def canonicalAbs (p : PathT) : Prop :=
  ∃ comps, p = renderAbs comps ∧ ∀ c ∈ comps, c ≠ [] ∧ c ≠ ['.'] ∧ c ≠ ['.', '.']

/-- Embedding of the Amalgamator configuration: everything is derived
from the (absolute) project root. -/
structure Amalgamator where
  project_root : PathT

/-- The src directory holding the seed source files. -/
def Amalgamator.src_dir (A : Amalgamator) : PathT :=
  A.project_root ++ "/src".data

/-- The public include directory. -/
def Amalgamator.include_dir (A : Amalgamator) : PathT :=
  A.project_root ++ "/include/semi".data

/-- The fixed excluded public-header set, in its curated order. -/
def Amalgamator.header_files (A : Amalgamator) : List PathT :=
  [A.include_dir ++ "/config.h".data,
   A.include_dir ++ "/error.h".data,
   A.include_dir ++ "/semi.h".data]

/-- Embedding of Amalgamator.normalize_path: a current-directory marker
resolves relative to the containing file's directory with the marker
removed; otherwise the namespaced semi prefix resolves against the public
include directory with the prefix stripped; otherwise the literal
resolves relative to the containing file's directory.  The result is
always passed through resolution; no existence check is made. -/
def Amalgamator.normalize_path (A : Amalgamator) (include_path : PathT)
    (current_file : PathT) : PathT :=
  let current_dir := parentPath current_file
  if startsWithL "./".data include_path then
    joinResolve current_dir (include_path.drop 2)
  else if startsWithL "semi/".data include_path then
    joinResolve A.include_dir (include_path.drop 5)
  else
    joinResolve current_dir include_path

/-- State of the sorter's recursion: the set of visited paths and the
accumulated output, both as lists. -/
structure TSState where
  visited : List PathT
  result : List PathT
deriving DecidableEq

/-- Append a finished node to the accumulated result. -/
def appendResult (s : TSState) (p : PathT) : TSState :=
  { s with result := s.result ++ [p] }

/-- The recursive visit of topological_sort: skip an already visited
node, otherwise mark it visited, visit its dependencies first (in the
iteration order of the dependency set, supplied here as a list), then
append the node.  The fuel argument encodes the recursion; it is never
exhausted when it exceeds the number of unvisited reachable nodes. -/
def visit (deps : PathT → List PathT) : Nat → PathT → TSState → TSState
  | 0, _, s => s
  | fuel + 1, p, s =>
    if p ∈ s.visited then s
    else
      appendResult
        ((deps p).foldl (fun t q => visit deps fuel q t)
          { visited := p :: s.visited, result := s.result }) p

/-- Embedding of topological_sort on the node list (as paths) with a
dependency-set iteration order for every node: visit every provided node
in order, accumulating the post-order result.  The fuel bound suffices
for the script's invocation, where the whole registry is passed to the
sorter and every dependency references a registry member. -/
def topological_sort (nodes : List PathT) (deps : PathT → List PathT) : List PathT :=
  (nodes.foldl (fun s p => visit deps (nodes.length + 1) p s)
    { visited := [], result := [] }).result

/-- The ordering contract of the sorter's output: every dependency of an
element occurs strictly before it. -/
def depsBefore (deps : PathT → List PathT) (l : List PathT) : Prop :=
  ∀ pre a post, l = pre ++ a :: post → ∀ b ∈ deps a, b ∈ pre

/-- Acyclicity of the dependency graph over a node set, expressed by a
rank function that strictly decreases along every dependency edge. -/
def AcyclicOn (nodes : List PathT) (deps : PathT → List PathT) : Prop :=
  ∃ r : PathT → Nat, ∀ a ∈ nodes, ∀ b ∈ deps a, r b < r a

/-- Number of universe members not yet visited; the sorter's recursion
measure. -/
def unvisitedCount : List PathT → List PathT → Nat
  | [], _ => 0
  | a :: U, v => (if a ∈ v then 0 else 1) + unvisitedCount U v

/-- State invariant of the sorter: visited paths lie in the universe, the
result is a duplicate-free list of visited paths, and every element of
the result is preceded by all its dependencies. -/
structure StateInv (U : List PathT) (deps : PathT → List PathT) (s : TSState) : Prop where
  vU : ∀ x ∈ s.visited, x ∈ U
  rv : ∀ x ∈ s.result, x ∈ s.visited
  nd : s.result.Nodup
  db : depsBefore deps s.result

/-- Conclusions of one visit call: the visited set grows, the invariant is
preserved, the result is extended by previously unvisited nodes only, and
no new node is left visited-but-unfinished. -/
structure VisitConcl (U : List PathT) (deps : PathT → List PathT) (s s' : TSState) : Prop where
  mono : ∀ x ∈ s.visited, x ∈ s'.visited
  inv : StateInv U deps s'
  ext : ∃ t, s'.result = s.result ++ t ∧ ∀ x ∈ t, x ∉ s.visited
  gray : ∀ x, x ∈ s'.visited → x ∉ s'.result → x ∈ s.visited ∧ x ∉ s.result

/-- State of the discovery engine: the registry (association list keyed by
canonical path, in registration order), the work list, the processed set
of the source (which is created empty and never extended), and the ghost
record of every path passed to read_file, in call order. -/
structure DiscState where
  files : List (PathT × FileNode)
  to_process : List PathT
  processed : List PathT
  loads : List PathT
deriving DecidableEq

/-- Registry lookup by canonical path. -/
def lookupF : List (PathT × FileNode) → PathT → Option FileNode
  | [], _ => none
  | (k, n) :: rest, p => if k = p then some n else lookupF rest p

/-- Add a dependency edge to the registry entry of the given path; the
dependency list is a set, so a present edge is not duplicated. -/
def addDep : List (PathT × FileNode) → PathT → PathT → List (PathT × FileNode)
  | [], _, _ => []
  | (k, n) :: rest, p, rp =>
    if k = p then
      (k, { n with dependencies :=
        if rp ∈ n.dependencies then n.dependencies else n.dependencies ++ [rp] }) :: rest
    else (k, n) :: addDep rest p rp

/-- The existence and exclusion checks applied to a resolved include
target: a missing file is skipped silently, and the fixed public-header
paths never become targets. -/
def lineTargetChecks (A : Amalgamator) (fs : FS) (rp : PathT) : Option PathT :=
  if fexists fs rp then
    if rp ∈ A.header_files then none else some rp
  else none

/-- The dependency target contributed by one content line of the file at
path p: a local-include match whose captured path holds no angle bracket,
resolved via normalize_path, existing on disk and not excluded. -/
def lineTarget (A : Amalgamator) (fs : FS) (p : PathT) (l : Line) : Option PathT :=
  match matchLocalInclude l with
  | none => none
  | some ip =>
    if decide ('<' ∈ ip) || decide ('>' ∈ ip) then none
    else lineTargetChecks A fs (A.normalize_path ip p)

/-- Register a resolved path if it is not yet in the registry, reading the
file exactly at this moment (recorded in the ghost load list). -/
def registerNew (fs : FS) (st : DiscState) (rp : PathT) : DiscState :=
  if (lookupF st.files rp).isSome then st
  else { st with files := st.files ++ [(rp, read_file fs rp)], loads := st.loads ++ [rp] }

/-- Record the dependency edge from the popped node to the target. -/
def recordDep (st : DiscState) (p rp : PathT) : DiscState :=
  { st with files := addDep st.files p rp }

/-- Enqueue the target for scanning; the guard on the processed set is
kept from the source, where that set is always empty. -/
def enqueueDep (st : DiscState) (p rp : PathT) : DiscState :=
  if p ∈ st.processed then st else { st with to_process := st.to_process ++ [rp] }

/-- Processing of one content line of the popped node. -/
def processLine (A : Amalgamator) (fs : FS) (p : PathT) (st : DiscState) (l : Line) :
    DiscState :=
  match lineTarget A fs p l with
  | none => st
  | some rp => enqueueDep (recordDep (registerNew fs st rp) p rp) p rp

/-- Scan every content line of the popped node in order. -/
def processNode (A : Amalgamator) (fs : FS) (st : DiscState) (p : PathT) : DiscState :=
  match lookupF st.files p with
  | none => st
  | some node => node.lines.foldl (processLine A fs p) st

/-- One iteration of the discovery work-list loop: pop the most recently
appended path and scan it, unless it is in the (always empty) processed
set. -/
def discover_step (A : Amalgamator) (fs : FS) (st : DiscState) : DiscState :=
  match st.to_process.getLast? with
  | none => st
  | some p =>
    if p ∈ st.processed then { st with to_process := st.to_process.dropLast }
    else processNode A fs { st with to_process := st.to_process.dropLast } p

/-- The discovery loop, with fuel encoding the while loop; the loop stops
of itself once the work list is empty. -/
def discover_loop (A : Amalgamator) (fs : FS) : Nat → DiscState → DiscState
  | 0, st => st
  | n + 1, st =>
    if st.to_process.isEmpty then st else discover_loop A fs n (discover_step A fs st)

/-- Initial discovery state of discover_files: every seed is read and
registered, and seeds the work list. -/
def discover_init (fs : FS) (start_files : List PathT) : DiscState :=
  { files := start_files.map (fun p => (p, read_file fs p)),
    to_process := start_files,
    processed := [],
    loads := start_files }

/-- Every dependency target the engine can follow out of the file at a
path: the resolved, existing, non-excluded local includes of its loaded
content, in line order. -/
def pushCandidates (A : Amalgamator) (fs : FS) (p : PathT) : List PathT :=
  ((read_file fs p).lines).filterMap (lineTarget A fs p)

/-- The followable local-include edge relation. -/
def followEdge (A : Amalgamator) (fs : FS) (p q : PathT) : Prop :=
  q ∈ pushCandidates A fs p

/-- Acyclicity of the local-include graph restricted to existing,
non-excluded files, expressed by a rank function that strictly decreases
along every followable edge out of such a file. -/
def DiscoveryAcyclic (A : Amalgamator) (fs : FS) : Prop :=
  ∃ r : PathT → Nat,
    ∀ p q, fexists fs p = true → p ∉ A.header_files → followEdge A fs p q → r q < r p

/-- Upper bound on the number of content lines of any file on disk. -/
def maxLoad (fs : FS) : Nat :=
  fs.foldr (fun e m => max (loadLines e.2).length m) 0

/-- Largest rank of any existing file, used to extend a rank function of
the restricted graph to all followable edges. -/
def maxRankOn (fs : FS) (r : PathT → Nat) : Nat :=
  fs.foldr (fun e m => max (r e.1) m) 0

/-- Termination measure of the discovery loop: a weight, exponential in
the rank, summed over the work list. -/
def queueWeight (fs : FS) (r : PathT → Nat) (l : List PathT) : Nat :=
  (l.map (fun p => (maxLoad fs + 1) ^ (r p + 1))).sum

/-- Invariant needed for termination: the processed set is empty (as in
the source), every queued path is registered, and every registry entry
carries exactly the loaded content of its path. -/
structure DiscTermInv (fs : FS) (st : DiscState) : Prop where
  proc : st.processed = []
  reg : ∀ p ∈ st.to_process, (lookupF st.files p).isSome = true
  lns : ∀ e ∈ st.files, e.2.lines = (read_file fs e.1).lines

/-- Full discovery invariant: registry keys are unique, loads happen
exactly at registration, every entry is well formed, every recorded edge
target exists, is not excluded and is registered, and every non-seed
registry key exists and is not excluded. -/
structure DiscFullInv (A : Amalgamator) (fs : FS) (seeds : List PathT) (st : DiscState) :
    Prop where
  base : DiscTermInv fs st
  keysNodup : (st.files.map Prod.fst).Nodup
  loadsEq : st.loads = st.files.map Prod.fst
  paths : ∀ e ∈ st.files, e.2.path = e.1
  depsOkay : ∀ e ∈ st.files, e.2.dependencies.Nodup ∧
    ∀ q ∈ e.2.dependencies,
      fexists fs q = true ∧ q ∉ A.header_files ∧ (lookupF st.files q).isSome = true
  keysOrigin : ∀ k ∈ st.files.map Prod.fst,
    k ∈ seeds ∨ (fexists fs k = true ∧ k ∉ A.header_files)

/-- The basename of a path: its final component. -/
def basename (p : PathT) : PathT :=
  ((splitPath p).getLast?).getD []

/-- The begin marker line bracketing a file's contribution. -/
def beginMarker (p : PathT) : Line :=
  "// BEGIN: ".data ++ basename p

/-- The end marker line bracketing a file's contribution. -/
def endMarker (p : PathT) : Line :=
  "// END: ".data ++ basename p

/-- Lexicographic comparison of paths by character code, the order used by
the sorted builtin on path strings. -/
def pathLeB : List Char → List Char → Bool
  | [], _ => true
  | _ :: _, [] => false
  | a :: as, b :: bs =>
    if a.val < b.val then true else if b.val < a.val then false else pathLeB as bs

/-- Insertion into a path-sorted node list. -/
def insertByPath (x : FileNode) : List FileNode → List FileNode
  | [] => [x]
  | y :: ys => if pathLeB x.path y.path then x :: y :: ys else y :: insertByPath x ys

/-- Sorting of the registry values by path, as done before the sort (keys
are unique, so stability is irrelevant). -/
def sortByPath : List FileNode → List FileNode
  | [] => []
  | x :: xs => insertByPath x (sortByPath xs)

/-- The dependency-set iteration order of a registered node. -/
def depsOf (files : List (PathT × FileNode)) (p : PathT) : List PathT :=
  match lookupF files p with
  | some n => n.dependencies
  | none => []

/-- The seed set of amalgamate: every file of the src directory with the
source extension (the glob of the source). -/
def all_c_files (A : Amalgamator) (fs : FS) : List PathT :=
  (fs.map Prod.fst).filter
    (fun k => decide (parentPath k = A.src_dir) && endsWithL ['.', 'c'] k)

/-- The discovery state reached by amalgamate after running the loop. -/
def discoveredState (A : Amalgamator) (fs : FS) (fuel : Nat) : DiscState :=
  discover_loop A fs fuel (discover_init fs (all_c_files A fs))

/-- The registry in topologically sorted order, as node records. -/
def sortedNodes (A : Amalgamator) (fs : FS) (fuel : Nat) : List FileNode :=
  (topological_sort
      ((sortByPath ((discoveredState A fs fuel).files.map Prod.snd)).map FileNode.path)
      (depsOf (discoveredState A fs fuel).files)).filterMap
    (fun p => lookupF (discoveredState A fs fuel).files p)

/-- One discovered header's contribution to the combined source. -/
def emitHeaderPart (n : FileNode) : Except GuardError (List Line) :=
  match strip_include_guards n.lines n.path with
  | Except.error e => Except.error e
  | Except.ok ls =>
    Except.ok (beginMarker n.path :: (remove_local_includes ls ++ [endMarker n.path, []]))

/-- The header section of the combined source; a guard failure anywhere
propagates. -/
def buildHeaderParts : List FileNode → Except GuardError (List Line)
  | [] => Except.ok []
  | n :: ns =>
    match emitHeaderPart n with
    | Except.error e => Except.error e
    | Except.ok a =>
      match buildHeaderParts ns with
      | Except.error e => Except.error e
      | Except.ok b => Except.ok (a ++ b)

/-- One discovered source file's contribution to the combined source. -/
def emitSourcePart (n : FileNode) : List Line :=
  beginMarker n.path :: (remove_local_includes n.lines ++ [endMarker n.path, []])

/-- The source-file section of the combined source. -/
def buildSourceParts (ns : List FileNode) : List Line :=
  ns.foldr (fun n acc => emitSourcePart n ++ acc) []

/-- The fixed public-header section of the combined header: each public
header is loaded fresh, guard-stripped (a failure propagates) and
include-stripped. -/
def buildPublicParts (fs : FS) : List PathT → Except GuardError (List Line)
  | [] => Except.ok []
  | hp :: rest =>
    match strip_include_guards (read_file fs hp).lines hp with
    | Except.error e => Except.error e
    | Except.ok ls =>
      match buildPublicParts fs rest with
      | Except.error e => Except.error e
      | Except.ok b =>
        Except.ok ((beginMarker hp :: (remove_local_includes ls ++ [endMarker hp, []])) ++ b)

/-- The fixed preamble of the combined source. -/
def sourcePreamble : List Line :=
  ["// Copyright (c) 2025 Ian Chen".data,
   "// SPDX-License-Identifier: MPL-2.0".data,
   [],
   "// This is an amalgamated file containing all Semi language implementation.".data,
   "// Generated by amalgamate.py".data,
   [],
   "#include \"semi.h\"".data,
   []]

/-- The fixed preamble of the combined header, including the outer guard
opening. -/
def headerPreamble : List Line :=
  ["// Copyright (c) 2025 Ian Chen".data,
   "// SPDX-License-Identifier: MPL-2.0".data,
   [],
   "// This is the public header for the Semi language.".data,
   "// Generated by amalgamate.py".data,
   [],
   "#ifndef SEMI_AMALGAMATED_H".data,
   "#define SEMI_AMALGAMATED_H".data,
   []]

/-- Embedding of Amalgamator.amalgamate: discover from the seed glob, sort
topologically, emit guard-stripped headers then sources into the combined
source, and assemble the combined public header from the fixed header
set; any guard failure propagates uncaught and no output pair is
produced. -/
def amalgamate (A : Amalgamator) (fs : FS) (fuel : Nat) :
    Except GuardError (List Line × List Line) :=
  match buildHeaderParts ((sortedNodes A fs fuel).filter (fun n => isHeaderPath n.path)) with
  | Except.error e => Except.error e
  | Except.ok hparts =>
    match buildPublicParts fs A.header_files with
    | Except.error e => Except.error e
    | Except.ok pparts =>
      Except.ok
        (sourcePreamble ++ hparts ++
           buildSourceParts ((sortedNodes A fs fuel).filter (fun n => !isHeaderPath n.path)),
         headerPreamble ++ pparts ++ ["#endif /* SEMI_AMALGAMATED_H */".data, []])

/-- Whether an Except value is a success. -/
def exceptOk {ε α : Type} : Except ε α → Bool
  | Except.ok _ => true
  | Except.error _ => false

/-- The last non-blank line of a file, if any. -/
def lastNonBlank (lines : List Line) : Option Line :=
  (lines.reverse.dropWhile blankLine).head?

/-- The failure condition of the guard stripper, as the specification
states it: no line matches the ifndef pattern with a valid guard name, or
the line immediately after the first such line is not the matching define
line (also when there is no such line), or the last non-blank line does
not begin with endif. -/
def GuardFailCond (lines : List Line) : Prop :=
  findGuardSplit lines = none ∨
    (∃ g rest, findGuardSplit lines = some (g, rest) ∧
      ∀ dl tl, rest = dl :: tl → matchDefine dl g = false) ∨
    (∀ el, lastNonBlank lines = some el →
      startsWithL "#endif".data (pyStrip el) = false)

/-- Fixture: a header whose ifndef and define lines carry mismatched
guard names. -/
def mismLines : List Line :=
  ["#ifndef X_H".data, "#define Y_H".data, "#endif".data]

/-- Fixture project for the abort witness. -/
def projW : Amalgamator :=
  { project_root := "/p".data }

/-- Fixture filesystem whose fixed public header config.h is malformed. -/
def fsMism : FS :=
  [("/p/include/semi/config.h".data, mismLines)]

/-- Fixture filesystem for the termination witness: a single source file
with no local includes. -/
def fsTermW : FS :=
  [("/p/src/solo.c".data, ["int solo;".data])]

/-- Fixture filesystem for the discovery witnesses: a source file that
includes the same header twice, plus that header. -/
def fsDisc : FS :=
  [("/p/src/m.c".data,
    ["#include \"u.h\"".data, "#include \"u.h\"".data, "int m;".data]),
   ("/p/src/u.h".data,
    ["#ifndef U_H".data, "#define U_H".data, "int u;".data, "#endif".data])]

/-- Diamond fixture: node list for the witness of the sorter claims. -/
def diamondNodes : List PathT :=
  [['a'], ['b'], ['c'], ['d']]

/-- Diamond fixture: both intermediate nodes depend on the same base. -/
def diamondDeps : PathT → List PathT := fun p =>
  if p = ['a'] then [['b'], ['c']]
  else if p = ['b'] then [['d']]
  else if p = ['c'] then [['d']]
  else []

/-- Diamond fixture: the witnessing rank function. -/
def diamondRank : PathT → Nat := fun p =>
  if p = ['d'] then 0 else if p = ['a'] then 2 else 1

/-- Tie fixture: one iteration order of the dependency set of a. -/
def tieDepsA : PathT → List PathT := fun p =>
  if p = ['a'] then [['b'], ['c']] else []

/-- Tie fixture: the other iteration order of the same dependency set. -/
def tieDepsB : PathT → List PathT := fun p =>
  if p = ['a'] then [['c'], ['b']] else []

/-- Tie fixture: node list closed under both tie dependency orders. -/
def tieNodes : List PathT :=
  [['a'], ['b'], ['c']]

/-- Tie fixture: rank function witnessing acyclicity. -/
def tieRank : PathT → Nat := fun p =>
  if p = ['a'] then 1 else 0

/-- Fixture lines for the include-filter witness: a local include, a
system include and an ordinary line. -/
def demoLines : List Line :=
  ["#include \"a.h\"".data,
   "#include <stdio.h>".data,
   "int x;".data]

/-- Fixture raw content with trailing whitespace for the load witness. -/
def demoRaw : List Line :=
  ["int x;  ".data,
   "int y;\t".data]

/-- Fixture leading block: a copyright banner line and a whitespace-only
line, both discarded at load time. -/
def demoBanner : List Line :=
  ["// Copyright (c) 2025 Ian Chen".data,
   "   ".data]

/-- Fixture well-formed header content. -/
def demoHeader : List Line :=
  ["#ifndef X_H".data,
   "#define X_H".data,
   "int x;".data,
   "#endif".data]

/-- Fixture body of the well-formed header. -/
def demoBody : List Line :=
  ["int x;".data]

lemma unvisitedCount_mono (U v v' : List PathT) (h : ∀ x ∈ v, x ∈ v') :
    unvisitedCount U v' ≤ unvisitedCount U v := by
  induction U with
  | nil => simp [unvisitedCount]
  | cons a U ih =>
    simp only [unvisitedCount]
    by_cases ha' : a ∈ v'
    · simp only [ha', if_true]
      by_cases ha : a ∈ v
      · simp only [ha, if_true]
        exact Nat.add_le_add_left ih 0
      · simp only [ha, if_false]
        omega
    · have ha : a ∉ v := fun hav => ha' (h a hav)
      simp only [ha', ha, if_false]
      exact Nat.add_le_add_left ih 1

lemma unvisitedCount_lt_cons (U v : List PathT) (p : PathT)
    (hU : p ∈ U) (hv : p ∉ v) :
    unvisitedCount U (p :: v) < unvisitedCount U v := by
  induction U with
  | nil => simp at hU
  | cons a U ih =>
    simp only [unvisitedCount]
    by_cases hap : a = p
    · subst hap
      have h1 : a ∈ a :: v := List.mem_cons_self a v
      simp only [h1, if_true, hv, if_false]
      have h2 : unvisitedCount U (a :: v) ≤ unvisitedCount U v :=
        unvisitedCount_mono U v (a :: v) (fun x hx => List.mem_cons_of_mem a hx)
      omega
    · have hpU : p ∈ U := by
        rcases List.mem_cons.mp hU with h | h
        · exact absurd h.symm hap
        · exact h
      have hsame : (a ∈ p :: v) ↔ (a ∈ v) := by
        constructor
        · intro hmem
          rcases List.mem_cons.mp hmem with h | h
          · exact absurd h hap
          · exact h
        · exact List.mem_cons_of_mem p
      by_cases hav : a ∈ v
      · simp only [hsame.mpr hav, if_true, hav, if_true]
        have := ih hpU
        omega
      · have : a ∉ p :: v := fun hmem => hav (hsame.mp hmem)
        simp only [this, if_false, hav, if_false]
        have := ih hpU
        omega

lemma unvisitedCount_le_length (U v : List PathT) :
    unvisitedCount U v ≤ U.length := by
  induction U with
  | nil => simp [unvisitedCount]
  | cons a U ih =>
    simp only [unvisitedCount, List.length_cons]
    by_cases ha : a ∈ v
    · simp only [ha, if_true]
      omega
    · simp only [ha, if_false]
      omega

lemma depsBefore_nil (deps : PathT → List PathT) : depsBefore deps [] := by
  intro pre a post h
  exact absurd h (by simp)

lemma append_singleton_cases {α : Type} (l pre post : List α) (p a : α)
    (h : l ++ [p] = pre ++ a :: post) :
    (pre = l ∧ a = p ∧ post = []) ∨
      ∃ post2, post = post2 ++ [p] ∧ l = pre ++ a :: post2 := by
  rcases List.eq_nil_or_concat' post with hpost | ⟨post2, x, hpost⟩
  · subst hpost
    have h' : l ++ [p] = pre ++ [a] := by simpa using h
    have := List.append_inj' h' rfl
    left
    exact ⟨this.1.symm, by simpa using (this.2).symm, rfl⟩
  · subst hpost
    have h' : l ++ [p] = (pre ++ a :: post2) ++ [x] := by simp [h]
    have := List.append_inj' h' rfl
    right
    refine ⟨post2, ?_, this.1⟩
    have hx : p = x := by simpa using this.2
    rw [hx]

lemma depsBefore_concat (deps : PathT → List PathT) (l : List PathT) (p : PathT)
    (h : depsBefore deps l) (h2 : ∀ b ∈ deps p, b ∈ l) :
    depsBefore deps (l ++ [p]) := by
  intro pre a post hsplit b hb
  rcases append_singleton_cases l pre post p a hsplit with ⟨hpre, hap, _⟩ | ⟨post2, _, hl⟩
  · subst hpre; subst hap
    exact h2 b hb
  · exact h pre a post2 hl b hb

lemma visitConcl_refl (U : List PathT) (deps : PathT → List PathT) (s : TSState)
    (h : StateInv U deps s) : VisitConcl U deps s s := by
  refine ⟨fun x hx => hx, h, ⟨[], by simp, by simp⟩, fun x hx hnx => ⟨hx, hnx⟩⟩

lemma visitConcl_trans (U : List PathT) (deps : PathT → List PathT) {s t u : TSState}
    (h1 : VisitConcl U deps s t) (h2 : VisitConcl U deps t u) : VisitConcl U deps s u := by
  obtain ⟨t1, e1, n1⟩ := h1.ext
  obtain ⟨t2, e2, n2⟩ := h2.ext
  refine ⟨fun x hx => h2.mono x (h1.mono x hx), h2.inv, ⟨t1 ++ t2, ?_, ?_⟩, ?_⟩
  · rw [e2, e1, List.append_assoc]
  · intro x hx
    rcases List.mem_append.mp hx with h | h
    · exact n1 x h
    · intro hxv
      exact n2 x h (h1.mono x hxv)
  · intro x hx hnx
    have := h2.gray x hx hnx
    exact h1.gray x this.1 this.2

lemma visitConcl_resMono (U : List PathT) (deps : PathT → List PathT) {s s' : TSState}
    (h : VisitConcl U deps s s') : ∀ x ∈ s.result, x ∈ s'.result := by
  obtain ⟨t, e, _⟩ := h.ext
  intro x hx
  rw [e]
  exact List.mem_append_left t hx

lemma visit_spec (U : List PathT) (deps : PathT → List PathT) (r : PathT → Nat)
    (hcl : ∀ a ∈ U, ∀ b ∈ deps a, b ∈ U)
    (hr : ∀ a ∈ U, ∀ b ∈ deps a, r b < r a) :
    ∀ fuel p s, p ∈ U → StateInv U deps s →
      (∀ x, x ∈ s.visited → x ∉ s.result → r p < r x) →
      unvisitedCount U s.visited < fuel →
      VisitConcl U deps s (visit deps fuel p s) ∧ p ∈ (visit deps fuel p s).result := by
  intro fuel
  induction fuel with
  | zero =>
    intro p s _ _ _ hcount
    exact absurd hcount (Nat.not_lt_zero _)
  | succ fuel ih =>
    intro p s hpU hinv hgray hcount
    by_cases hp : p ∈ s.visited
    · have hv : visit deps (fuel + 1) p s = s := by
        simp [visit, hp]
      rw [hv]
      refine ⟨visitConcl_refl U deps s hinv, ?_⟩
      by_contra hpr
      exact absurd (hgray p hp hpr) (lt_irrefl _)
    · have hv : visit deps (fuel + 1) p s =
        appendResult
          ((deps p).foldl (fun t q => visit deps fuel q t)
            { visited := p :: s.visited, result := s.result }) p := by
        simp [visit, hp]
      have hs1inv : StateInv U deps { visited := p :: s.visited, result := s.result } := by
        refine ⟨?_, ?_, hinv.nd, hinv.db⟩
        · intro x hx
          rcases List.mem_cons.mp hx with h | h
          · rw [h]; exact hpU
          · exact hinv.vU x h
        · intro x hx
          exact List.mem_cons_of_mem p (hinv.rv x hx)
      have fold_spec : ∀ (qs : List PathT) (t : TSState),
          (∀ q ∈ qs, q ∈ U) → StateInv U deps t →
          (∀ q ∈ qs, ∀ x, x ∈ t.visited → x ∉ t.result → r q < r x) →
          unvisitedCount U t.visited < fuel →
          VisitConcl U deps t (qs.foldl (fun t' q => visit deps fuel q t') t) ∧
            ∀ q ∈ qs, q ∈ (qs.foldl (fun t' q => visit deps fuel q t') t).result := by
        intro qs
        induction qs with
        | nil =>
          intro t _ hinvT _ _
          exact ⟨visitConcl_refl U deps t hinvT, by simp⟩
        | cons q qs ihq =>
          intro t hqs hinvT hgr hcnt
          have h1 := ih q t (hqs q (List.mem_cons_self q qs)) hinvT
            (hgr q (List.mem_cons_self q qs)) hcnt
          have hcnt1 : unvisitedCount U (visit deps fuel q t).visited < fuel :=
            lt_of_le_of_lt (unvisitedCount_mono U t.visited _ h1.1.mono) hcnt
          have h2 := ihq (visit deps fuel q t)
            (fun q' hq' => hqs q' (List.mem_cons_of_mem q hq'))
            h1.1.inv
            (fun q' hq' x hx hnx => by
              have hg := h1.1.gray x hx hnx
              exact hgr q' (List.mem_cons_of_mem q hq') x hg.1 hg.2)
            hcnt1
          rw [List.foldl_cons]
          refine ⟨visitConcl_trans U deps h1.1 h2.1, ?_⟩
          intro q' hq'
          rcases List.mem_cons.mp hq' with h | h
          · rw [h]
            exact visitConcl_resMono U deps h2.1 q h1.2
          · exact h2.2 q' h
      have hcnt1 : unvisitedCount U (p :: s.visited) < fuel := by
        have hlt := unvisitedCount_lt_cons U s.visited p hpU hp
        omega
      have hrank1 : ∀ q ∈ deps p, ∀ x,
          x ∈ ({ visited := p :: s.visited, result := s.result } : TSState).visited →
          x ∉ ({ visited := p :: s.visited, result := s.result } : TSState).result →
          r q < r x := by
        intro q hq x hx hnx
        rcases List.mem_cons.mp hx with h | h
        · rw [h]
          exact hr p hpU q hq
        · exact lt_trans (hr p hpU q hq) (hgray x h hnx)
      have hfold := fold_spec (deps p) { visited := p :: s.visited, result := s.result }
        (hcl p hpU) hs1inv hrank1 hcnt1
      obtain ⟨tmid, emid, nmid⟩ := hfold.1.ext
      rw [hv]
      have hpnotmid : p ∉
          ((deps p).foldl (fun t' q => visit deps fuel q t')
            { visited := p :: s.visited, result := s.result }).result := by
        rw [emid]
        intro hmem
        rcases List.mem_append.mp hmem with h | h
        · exact hp (hinv.rv p h)
        · exact nmid p h (List.mem_cons_self p s.visited)
      constructor
      · refine ⟨?_, ⟨?_, ?_, ?_, ?_⟩, ?_, ?_⟩
        · intro x hx
          exact hfold.1.mono x (List.mem_cons_of_mem p hx)
        · intro x hx
          exact hfold.1.inv.vU x hx
        · intro x hx
          simp only [appendResult] at hx
          rcases List.mem_append.mp hx with h | h
          · exact hfold.1.inv.rv x h
          · have hxp : x = p := by simpa using h
            rw [hxp]
            exact hfold.1.mono p (List.mem_cons_self p s.visited)
        · simp only [appendResult]
          rw [List.nodup_append]
          refine ⟨hfold.1.inv.nd, List.nodup_singleton p, ?_⟩
          intro x hx hx2
          have hxp : x = p := by simpa using hx2
          rw [hxp] at hx
          exact hpnotmid hx
        · simp only [appendResult]
          refine depsBefore_concat deps _ p hfold.1.inv.db ?_
          intro b hb
          exact hfold.2 b hb
        · refine ⟨tmid ++ [p], ?_, ?_⟩
          · simp only [appendResult]
            rw [emid, List.append_assoc]
          · intro x hx
            rcases List.mem_append.mp hx with h | h
            · intro hxv
              exact nmid x h (List.mem_cons_of_mem p hxv)
            · have hxp : x = p := by simpa using h
              rw [hxp]
              exact hp
        · intro x hx hnx
          simp only [appendResult] at hnx hx
          have hxnp : x ≠ p := by
            intro hxp
            rw [hxp] at hnx
            exact hnx (List.mem_append_right _ (List.mem_singleton_self p))
          have hnx2 : x ∉
              ((deps p).foldl (fun t' q => visit deps fuel q t')
                { visited := p :: s.visited, result := s.result }).result := by
            intro hmem
            exact hnx (List.mem_append_left _ hmem)
          have hg := hfold.1.gray x hx hnx2
          rcases List.mem_cons.mp hg.1 with h | h
          · exact absurd h hxnp
          · exact ⟨h, hg.2⟩
      · simp only [appendResult]
        exact List.mem_append_right _ (List.mem_singleton_self p)

lemma topfold_spec (U : List PathT) (deps : PathT → List PathT) (r : PathT → Nat)
    (hcl : ∀ a ∈ U, ∀ b ∈ deps a, b ∈ U)
    (hr : ∀ a ∈ U, ∀ b ∈ deps a, r b < r a) :
    ∀ (ps : List PathT) (s : TSState),
      (∀ q ∈ ps, q ∈ U) → StateInv U deps s →
      (∀ x ∈ s.visited, x ∈ s.result) →
      VisitConcl U deps s (ps.foldl (fun s' q => visit deps (U.length + 1) q s') s) ∧
        (∀ x ∈ (ps.foldl (fun s' q => visit deps (U.length + 1) q s') s).visited,
          x ∈ (ps.foldl (fun s' q => visit deps (U.length + 1) q s') s).result) ∧
        (∀ q ∈ ps, q ∈ (ps.foldl (fun s' q => visit deps (U.length + 1) q s') s).result) := by
  intro ps
  induction ps with
  | nil =>
    intro s _ hinv hng
    exact ⟨visitConcl_refl U deps s hinv, hng, by simp⟩
  | cons q ps ihp =>
    intro s hps hinv hng
    have hcount : unvisitedCount U s.visited < U.length + 1 :=
      Nat.lt_succ_of_le (unvisitedCount_le_length U s.visited)
    have h1 := visit_spec U deps r hcl hr (U.length + 1) q s
      (hps q (List.mem_cons_self q ps)) hinv
      (fun x hx hnx => absurd (hng x hx) hnx) hcount
    have hng1 : ∀ x ∈ (visit deps (U.length + 1) q s).visited,
        x ∈ (visit deps (U.length + 1) q s).result := by
      intro x hx
      by_contra hnx
      exact absurd (hng x (h1.1.gray x hx hnx).1) (h1.1.gray x hx hnx).2
    have h2 := ihp (visit deps (U.length + 1) q s)
      (fun q' hq' => hps q' (List.mem_cons_of_mem q hq'))
      h1.1.inv hng1
    rw [List.foldl_cons]
    refine ⟨visitConcl_trans U deps h1.1 h2.1, h2.2.1, ?_⟩
    intro q' hq'
    rcases List.mem_cons.mp hq' with h | h
    · rw [h]
      exact visitConcl_resMono U deps h2.1 q h1.2
    · exact h2.2.2 q' h

/-- Claim C1: for every registry whose dependency graph over registered
File Units is acyclic, topological_sort returns a permutation of the
registry — every unit, including units reachable only as dependency
targets and units shared by several dependents, appears exactly once —
and for every dependency edge from A to B, B occupies an earlier
position than A. -/
theorem topological_sort_correct (nodes : List PathT) (deps : PathT → List PathT)
    (hnd : nodes.Nodup)
    (hcl : ∀ a ∈ nodes, ∀ b ∈ deps a, b ∈ nodes)
    (hac : AcyclicOn nodes deps) :
    (topological_sort nodes deps).Perm nodes ∧
      depsBefore deps (topological_sort nodes deps) := by
  obtain ⟨r, hr⟩ := hac
  have h := topfold_spec nodes deps r hcl hr nodes { visited := [], result := [] }
    (fun q hq => hq) ⟨by simp, by simp, List.nodup_nil, depsBefore_nil deps⟩ (by simp)
  simp only [topological_sort]
  constructor
  · refine (List.perm_ext_iff_of_nodup h.1.inv.nd hnd).mpr ?_
    intro a
    constructor
    · intro ha
      exact h.1.inv.vU a (h.1.inv.rv a ha)
    · intro ha
      exact h.2.2 a ha
  · exact h.1.inv.db

/-- Witness for claim C1: the diamond registry, where d is depended on by
both b and c, and a depends on both; the hypotheses hold and the sorter
output is a dependency-respecting permutation. -/
theorem topological_sort_correct_witness :
    (diamondNodes.Nodup ∧ (∀ a ∈ diamondNodes, ∀ b ∈ diamondDeps a, b ∈ diamondNodes) ∧
        AcyclicOn diamondNodes diamondDeps) ∧
      ((topological_sort diamondNodes diamondDeps).Perm diamondNodes ∧
        depsBefore diamondDeps (topological_sort diamondNodes diamondDeps)) :=
  ⟨⟨by decide, by decide, ⟨diamondRank, by decide⟩⟩,
    topological_sort_correct diamondNodes diamondDeps (by decide) (by decide)
      ⟨diamondRank, by decide⟩⟩

/-- Claim C4, counterexample: two runs of the sorter on an identical
registry with identical dependency sets — differing only in the
iteration order of the dependency set, which the source leaves to
unordered set iteration — produce different linear orders, so the claimed
run-to-run determinism on ties fails. -/
theorem topological_sort_tie_sensitive :
    (∀ p : PathT, (tieDepsA p).Perm (tieDepsB p)) ∧
      topological_sort [['a']] tieDepsA ≠ topological_sort [['a']] tieDepsB := by
  constructor
  · intro p
    by_cases hp : p = ['a']
    · subst hp
      simp only [tieDepsA, tieDepsB, if_pos rfl]
      decide
    · simp only [tieDepsA, tieDepsB, if_neg hp]
      exact List.Perm.refl []
  · decide

/-- Claim C4, amended: the sorter is a deterministic pure function of the
registry and of the iteration order of each dependency set — identical
iteration orders give identical output — and with merely equal dependency
sets (possibly iterated in different orders) the two outputs are
permutations of one another, while the relative order of unconstrained
units may differ. -/
theorem topological_sort_deterministic (nodes : List PathT)
    (deps1 deps2 : PathT → List PathT)
    (hnd : nodes.Nodup)
    (hcl : ∀ a ∈ nodes, ∀ b ∈ deps1 a, b ∈ nodes)
    (hac : AcyclicOn nodes deps1)
    (hperm : ∀ p, (deps1 p).Perm (deps2 p)) :
    (topological_sort nodes deps1).Perm (topological_sort nodes deps2) ∧
      ((∀ p, deps1 p = deps2 p) →
        topological_sort nodes deps1 = topological_sort nodes deps2) := by
  obtain ⟨r, hr⟩ := hac
  have hmem : ∀ p b, b ∈ deps2 p ↔ b ∈ deps1 p := fun p b => ((hperm p).mem_iff).symm
  have hcl2 : ∀ a ∈ nodes, ∀ b ∈ deps2 a, b ∈ nodes :=
    fun a ha b hb => hcl a ha b ((hmem a b).mp hb)
  have hr2 : ∀ a ∈ nodes, ∀ b ∈ deps2 a, r b < r a :=
    fun a ha b hb => hr a ha b ((hmem a b).mp hb)
  have h1 := topfold_spec nodes deps1 r hcl hr nodes { visited := [], result := [] }
    (fun q hq => hq) ⟨by simp, by simp, List.nodup_nil, depsBefore_nil deps1⟩ (by simp)
  have h2 := topfold_spec nodes deps2 r hcl2 hr2 nodes { visited := [], result := [] }
    (fun q hq => hq) ⟨by simp, by simp, List.nodup_nil, depsBefore_nil deps2⟩ (by simp)
  constructor
  · have p1 : (topological_sort nodes deps1).Perm nodes := by
      simp only [topological_sort]
      refine (List.perm_ext_iff_of_nodup h1.1.inv.nd hnd).mpr ?_
      intro a
      exact ⟨fun ha => h1.1.inv.vU a (h1.1.inv.rv a ha), fun ha => h1.2.2 a ha⟩
    have p2 : (topological_sort nodes deps2).Perm nodes := by
      simp only [topological_sort]
      refine (List.perm_ext_iff_of_nodup h2.1.inv.nd hnd).mpr ?_
      intro a
      exact ⟨fun ha => h2.1.inv.vU a (h2.1.inv.rv a ha), fun ha => h2.2.2 a ha⟩
    exact p1.trans p2.symm
  · intro heq
    have : deps1 = deps2 := funext heq
    rw [this]

/-- Witness for the amended claim C4: the tie fixture satisfies the
hypotheses, the two iteration orders give permutations of one another,
and equal iteration orders give equal output. -/
theorem topological_sort_deterministic_witness :
    (tieNodes.Nodup ∧ (∀ a ∈ tieNodes, ∀ b ∈ tieDepsA a, b ∈ tieNodes) ∧
        AcyclicOn tieNodes tieDepsA ∧ (∀ p, (tieDepsA p).Perm (tieDepsB p))) ∧
      ((topological_sort tieNodes tieDepsA).Perm (topological_sort tieNodes tieDepsB) ∧
        ((∀ p, tieDepsA p = tieDepsB p) →
          topological_sort tieNodes tieDepsA = topological_sort tieNodes tieDepsB)) := by
  have hperm : ∀ p, (tieDepsA p).Perm (tieDepsB p) := by
    intro p
    by_cases hp : p = ['a']
    · subst hp
      simp only [tieDepsA, tieDepsB, if_pos rfl]
      decide
    · simp only [tieDepsA, tieDepsB, if_neg hp]
      exact List.Perm.refl []
  exact ⟨⟨by decide, by decide, ⟨tieRank, by decide⟩, hperm⟩,
    topological_sort_deterministic tieNodes tieDepsA tieDepsB (by decide) (by decide)
      ⟨tieRank, by decide⟩ hperm⟩

lemma mem_of_mem_dropWhile {α : Type} (p : α → Bool) (l : List α) :
    ∀ x ∈ l.dropWhile p, x ∈ l := by
  induction l with
  | nil => simp
  | cons a l ih =>
    intro x hx
    rw [List.dropWhile_cons] at hx
    by_cases h : p a
    · simp only [h, if_true] at hx
      exact List.mem_cons_of_mem a (ih x hx)
    · simp only [h, if_false] at hx
      exact hx

lemma findGuardSplit_sub (ls : List Line) (g : Line) (rest : List Line)
    (h : findGuardSplit ls = some (g, rest)) : ∀ l ∈ rest, l ∈ ls := by
  induction ls with
  | nil => simp [findGuardSplit] at h
  | cons a ls ih =>
    simp only [findGuardSplit] at h
    cases hm : matchIfndef a with
    | some g' =>
      rw [hm] at h
      have : rest = ls := by
        cases h
        rfl
      rw [this]
      intro l hl
      exact List.mem_cons_of_mem a hl
    | none =>
      rw [hm] at h
      intro l hl
      exact List.mem_cons_of_mem a (ih h l hl)

lemma strip_ok_sub (ls out : List Line) (fp : PathT)
    (h : strip_include_guards ls fp = Except.ok out) : ∀ l ∈ out, l ∈ ls := by
  simp only [strip_include_guards] at h
  by_cases hfp : endsWithL ['.', 'h'] fp = true
  · rw [if_pos hfp] at h
    cases hsplit : findGuardSplit ls with
    | none => rw [hsplit] at h; cases h
    | some pr =>
      obtain ⟨g, rest⟩ := pr
      rw [hsplit] at h
      have hsub := findGuardSplit_sub ls g rest hsplit
      cases rest with
      | nil => simp [stripAfter] at h
      | cons dl tl =>
        simp only [stripAfter] at h
        by_cases hdef : matchDefine dl g = true
        · rw [if_pos hdef] at h
          cases hdrop : tl.reverse.dropWhile blankLine with
          | nil => simp [hdrop] at h
          | cons el body =>
            simp only [hdrop] at h
            by_cases hend : startsWithL "#endif".data (pyStrip el) = true
            · rw [if_pos hend] at h
              have hout : out = body.reverse := by
                cases h
                rfl
              rw [hout]
              intro l hl
              have h1 : l ∈ body := List.mem_reverse.mp hl
              have h2 : l ∈ el :: body := List.mem_cons_of_mem el h1
              rw [← hdrop] at h2
              have h3 : l ∈ tl.reverse := mem_of_mem_dropWhile blankLine tl.reverse l h2
              have h4 : l ∈ tl := List.mem_reverse.mp h3
              exact hsub l (List.mem_cons_of_mem dl h4)
            · rw [if_neg hend] at h
              cases h
        · rw [if_neg hdef] at h
          cases h
  · rw [if_neg hfp] at h
    have : out = ls := by
      cases h
      rfl
    rw [this]
    exact fun l hl => hl

lemma dropWhile_dropWhile {α : Type} (p : α → Bool) (x : List α) :
    (x.dropWhile p).dropWhile p = x.dropWhile p := by
  induction x with
  | nil => simp
  | cons a x ih =>
    by_cases h : p a = true
    · rw [List.dropWhile_cons, if_pos h]
      exact ih
    · rw [List.dropWhile_cons, if_neg h, List.dropWhile_cons, if_neg h]

lemma rstripLine_rstripLine (l : Line) : rstripLine (rstripLine l) = rstripLine l := by
  simp only [rstripLine, List.reverse_reverse]
  rw [dropWhile_dropWhile]

lemma loadGo_rstripped : ∀ (b : Bool) (raw : List Line), ∀ l ∈ loadGo b raw,
    rstripLine l = l := by
  intro b raw
  induction raw generalizing b with
  | nil => simp [loadGo]
  | cons rl raw ih =>
    intro l hl
    simp only [loadGo] at hl
    by_cases hc : (b && (decide (rstripLine rl ∈ COPYRIGHT_LINES) ||
        (rstripLine rl).isEmpty)) = true
    · rw [if_pos hc] at hl
      exact ih true l hl
    · rw [if_neg hc] at hl
      rcases List.mem_cons.mp hl with h | h
      · rw [h]
        exact rstripLine_rstripLine rl
      · exact ih false l h

lemma loadGo_skip : ∀ (pre rest : List Line),
    (∀ l ∈ pre, rstripLine l ∈ COPYRIGHT_LINES ∨ rstripLine l = []) →
    loadGo true (pre ++ rest) = loadGo true rest := by
  intro pre
  induction pre with
  | nil => simp
  | cons rl pre ih =>
    intro rest h
    have h1 := h rl (List.mem_cons_self rl pre)
    have hc : (decide (rstripLine rl ∈ COPYRIGHT_LINES) ||
        (rstripLine rl).isEmpty) = true := by
      rcases h1 with h2 | h2
      · simp [h2]
      · simp [h2]
    simp only [List.cons_append, loadGo, Bool.true_and, hc, if_pos]
    exact ih rest (fun l hl => h l (List.mem_cons_of_mem rl hl))

lemma dropWhile_cons_neg {α : Type} (p : α → Bool) (a : α) (l : List α)
    (h : p a = false) : (a :: l).dropWhile p = a :: l := by
  rw [List.dropWhile_cons, h]
  simp

lemma dropWhile_append_all {α : Type} (p : α → Bool) (xs ys : List α)
    (h : ∀ x ∈ xs, p x = true) : (xs ++ ys).dropWhile p = ys.dropWhile p := by
  induction xs with
  | nil => simp
  | cons a xs ih =>
    rw [List.cons_append, List.dropWhile_cons, h a (List.mem_cons_self a xs)]
    simp only [if_true]
    exact ih (fun x hx => h x (List.mem_cons_of_mem a hx))

lemma dropWhile_append_ne {α : Type} (p : α → Bool) (xs ys : List α) (a : α) (r : List α)
    (h : xs.dropWhile p = a :: r) : (xs ++ ys).dropWhile p = a :: (r ++ ys) := by
  induction xs with
  | nil => simp at h
  | cons x xs ih =>
    rw [List.dropWhile_cons] at h
    by_cases hx : p x = true
    · rw [hx] at h
      simp only [if_true] at h
      rw [List.cons_append, List.dropWhile_cons, hx]
      simp only [if_true]
      exact ih h
    · rw [Bool.not_eq_true] at hx
      rw [hx] at h
      simp only [Bool.false_eq_true, if_false] at h
      cases h
      rw [List.cons_append, List.dropWhile_cons, hx]
      simp

lemma findGuardSplit_append (pre : List Line) (ifL : Line) (rest : List Line) (g : Line)
    (hpre : ∀ l ∈ pre, matchIfndef l = none) (hif : matchIfndef ifL = some g) :
    findGuardSplit (pre ++ ifL :: rest) = some (g, rest) := by
  induction pre with
  | nil => simp [findGuardSplit, hif]
  | cons a pre ih =>
    rw [List.cons_append]
    simp only [findGuardSplit, hpre a (List.mem_cons_self a pre)]
    exact ih (fun l hl => hpre l (List.mem_cons_of_mem a hl))

/-- Claim C2: for a header-kind path and lines whose first ifndef match
carries guard g, immediately followed by the matching define line, with
the last non-blank line an endif line, strip_include_guards returns
exactly the lines strictly between the define line and the endif line,
discarding everything before the ifndef and after the endif; and for a
non-header path it returns the input unchanged. -/
theorem strip_include_guards_wellformed
    (pre body blanks : List Line) (ifL defL endL : Line) (g : Line) (fp : PathT)
    (hfp : endsWithL ['.', 'h'] fp = true)
    (hpre : ∀ l ∈ pre, matchIfndef l = none)
    (hif : matchIfndef ifL = some g)
    (hdef : matchDefine defL g = true)
    (hendNB : blankLine endL = false)
    (hendS : startsWithL "#endif".data (pyStrip endL) = true)
    (hbl : ∀ l ∈ blanks, blankLine l = true) :
    strip_include_guards (pre ++ ifL :: defL :: (body ++ endL :: blanks)) fp
        = Except.ok body ∧
      ∀ (ls : List Line) (fp2 : PathT), endsWithL ['.', 'h'] fp2 = false →
        strip_include_guards ls fp2 = Except.ok ls := by
  constructor
  · simp only [strip_include_guards, hfp, if_true,
      findGuardSplit_append pre ifL (defL :: (body ++ endL :: blanks)) g hpre hif]
    simp only [stripAfter, hdef, if_true]
    have hrev : (body ++ endL :: blanks).reverse = blanks.reverse ++ endL :: body.reverse := by
      simp
    rw [hrev,
      dropWhile_append_all blankLine blanks.reverse (endL :: body.reverse)
        (fun x hx => hbl x (List.mem_reverse.mp hx)),
      dropWhile_cons_neg blankLine endL body.reverse hendNB]
    simp [hendS]
  · intro ls fp2 h2
    simp [strip_include_guards, h2]

/-- Witness for claim C2: a concrete well-formed header with a banner
line before the guard and a blank line after the endif strips to exactly
its body, and a non-header file passes through unchanged. -/
theorem strip_include_guards_wellformed_witness :
    strip_include_guards
        (["// banner".data] ++ "#ifndef X_H".data :: "#define X_H".data ::
          (["int x;".data] ++ "#endif // X_H".data :: ["".data])) "x.h".data
      = Except.ok ["int x;".data] ∧
      strip_include_guards ["abc".data] "a.c".data = Except.ok ["abc".data] :=
  ⟨(strip_include_guards_wellformed ["// banner".data] ["int x;".data] ["".data]
      "#ifndef X_H".data "#define X_H".data "#endif // X_H".data "X_H".data "x.h".data
      (by decide) (by decide) (by decide) (by decide) (by decide) (by decide)
      (by decide)).1,
    (strip_include_guards_wellformed ["// banner".data] ["int x;".data] ["".data]
      "#ifndef X_H".data "#define X_H".data "#endif // X_H".data "X_H".data "x.h".data
      (by decide) (by decide) (by decide) (by decide) (by decide) (by decide)
      (by decide)).2 ["abc".data] "a.c".data (by decide)⟩

lemma startsWithL_iff (pre l : List Char) :
    startsWithL pre l = true ↔ ∃ t, l = pre ++ t := by
  induction pre generalizing l with
  | nil => simp [startsWithL]
  | cons a pre ih =>
    cases l with
    | nil =>
      simp [startsWithL]
    | cons b l2 =>
      simp only [startsWithL, Bool.and_eq_true, decide_eq_true_eq]
      constructor
      · rintro ⟨hab, h⟩
        obtain ⟨t, ht⟩ := (ih l2).mp h
        refine ⟨t, ?_⟩
        rw [List.cons_append, ← hab, ht]
      · rintro ⟨t, ht⟩
        rw [List.cons_append] at ht
        have h1 : b = a := List.head_eq_of_cons_eq ht
        have h2 : l2 = pre ++ t := List.tail_eq_of_cons_eq ht
        exact ⟨h1.symm, (ih l2).mpr ⟨t, h2⟩⟩

lemma matchDefine_strip (dl g : Line) (h : matchDefine dl g = true) :
    ∃ t, pyStrip dl = "#define".data ++ t := by
  simp only [matchDefine, Bool.and_eq_true] at h
  exact (startsWithL_iff _ _).mp h.1.1

lemma matchDefine_not_blank (dl g : Line) (h : matchDefine dl g = true) :
    blankLine dl = false := by
  obtain ⟨t, ht⟩ := matchDefine_strip dl g h
  simp only [blankLine, decide_eq_false_iff_not]
  rw [ht]
  simp

lemma matchDefine_not_endif (dl g : Line) (h : matchDefine dl g = true) :
    startsWithL "#endif".data (pyStrip dl) = false := by
  obtain ⟨t, ht⟩ := matchDefine_strip dl g h
  by_contra hc
  rw [Bool.not_eq_false] at hc
  obtain ⟨t2, ht2⟩ := (startsWithL_iff _ _).mp hc
  rw [ht] at ht2
  simp at ht2

lemma findGuardSplit_decomp (ls : List Line) (g : Line) (rest : List Line)
    (h : findGuardSplit ls = some (g, rest)) :
    ∃ pre ifL, ls = pre ++ ifL :: rest ∧ matchIfndef ifL = some g := by
  induction ls with
  | nil => simp [findGuardSplit] at h
  | cons a ls ih =>
    simp only [findGuardSplit] at h
    cases hm : matchIfndef a with
    | some g2 =>
      rw [hm] at h
      have h2 := Option.some.inj h
      have hg : g2 = g := congrArg Prod.fst h2
      have hrest : ls = rest := congrArg Prod.snd h2
      subst hg
      subst hrest
      exact ⟨[], a, by simp, hm⟩
    | none =>
      rw [hm] at h
      obtain ⟨pre, ifL, hls, hif⟩ := ih h
      exact ⟨a :: pre, ifL, by rw [List.cons_append, hls], hif⟩

lemma lastNonBlank_append_of_drop (xs ys : List Line) (el : Line) (body : List Line)
    (h : ys.reverse.dropWhile blankLine = el :: body) :
    lastNonBlank (xs ++ ys) = some el := by
  simp only [lastNonBlank, List.reverse_append]
  rw [dropWhile_append_ne blankLine ys.reverse xs.reverse el body h]
  rfl

lemma lastNonBlank_append_blank (xs ys : List Line)
    (h : ∀ l ∈ ys, blankLine l = true) :
    lastNonBlank (xs ++ ys) = lastNonBlank xs := by
  simp only [lastNonBlank, List.reverse_append]
  rw [dropWhile_append_all blankLine ys.reverse xs.reverse
    (fun x hx => h x (List.mem_reverse.mp hx))]

lemma strip_cases (lines : List Line) (fp : PathT)
    (hfp : endsWithL ['.', 'h'] fp = true) :
    (exceptOk (strip_include_guards lines fp) = true ∧ ¬GuardFailCond lines) ∨
      (exceptOk (strip_include_guards lines fp) = false ∧ GuardFailCond lines) := by
  cases hsplit : findGuardSplit lines with
  | none =>
    have hstrip : strip_include_guards lines fp = Except.error GuardError.noIfndef := by
      simp [strip_include_guards, hfp, hsplit]
    right
    rw [hstrip]
    exact ⟨rfl, Or.inl hsplit⟩
  | some pr =>
    obtain ⟨g, rest⟩ := pr
    have hstrip : strip_include_guards lines fp = stripAfter g rest := by
      simp [strip_include_guards, hfp, hsplit]
    obtain ⟨pre, ifL, hls, hif⟩ := findGuardSplit_decomp lines g rest hsplit
    rw [hstrip]
    cases rest with
    | nil =>
      right
      exact ⟨rfl, Or.inr (Or.inl ⟨g, [], hsplit, fun dl tl hcon => by cases hcon⟩)⟩
    | cons dl tl =>
      by_cases hdef : matchDefine dl g = true
      · cases hdrop : tl.reverse.dropWhile blankLine with
        | nil =>
          have hres : stripAfter g (dl :: tl) = Except.error GuardError.missingEndif := by
            simp [stripAfter, hdef, hdrop]
          rw [hres]
          right
          have hblank : ∀ l ∈ tl, blankLine l = true := by
            intro l hl
            exact List.dropWhile_eq_nil_iff.mp hdrop l (List.mem_reverse.mpr hl)
          have hdl : ([dl] : List Line).reverse.dropWhile blankLine = dl :: [] := by
            simp [dropWhile_cons_neg blankLine dl [] (matchDefine_not_blank dl g hdef)]
          have hlnb : lastNonBlank lines = some dl := by
            rw [hls]
            have hre : pre ++ ifL :: dl :: tl = ((pre ++ [ifL]) ++ [dl]) ++ tl := by simp
            rw [hre, lastNonBlank_append_blank _ tl hblank,
              lastNonBlank_append_of_drop (pre ++ [ifL]) [dl] dl [] hdl]
          refine ⟨rfl, Or.inr (Or.inr ?_)⟩
          intro el hel
          rw [hlnb] at hel
          cases Option.some.inj hel
          exact matchDefine_not_endif dl g hdef
        | cons el body =>
          have hlnb : lastNonBlank lines = some el := by
            rw [hls]
            have hre : pre ++ ifL :: dl :: tl = (pre ++ [ifL, dl]) ++ tl := by simp
            rw [hre]
            exact lastNonBlank_append_of_drop (pre ++ [ifL, dl]) tl el body hdrop
          by_cases hend : startsWithL "#endif".data (pyStrip el) = true
          · have hres : stripAfter g (dl :: tl) = Except.ok body.reverse := by
              simp [stripAfter, hdef, hdrop, hend]
            rw [hres]
            left
            refine ⟨rfl, ?_⟩
            intro hcond
            rcases hcond with hA | hB | hC
            · rw [hsplit] at hA
              cases hA
            · obtain ⟨g2, rest2, hsplit2, hB2⟩ := hB
              rw [hsplit] at hsplit2
              have h2 := Option.some.inj hsplit2
              have hg : g = g2 := congrArg Prod.fst h2
              have hr : dl :: tl = rest2 := congrArg Prod.snd h2
              have hcon := hB2 dl tl hr.symm
              rw [← hg] at hcon
              rw [hcon] at hdef
              exact Bool.noConfusion hdef
            · have hcon := hC el hlnb
              rw [hend] at hcon
              exact Bool.noConfusion hcon
          · have hres : stripAfter g (dl :: tl) = Except.error GuardError.notEndif := by
              simp [stripAfter, hdef, hdrop, hend]
            rw [hres]
            right
            refine ⟨rfl, Or.inr (Or.inr ?_)⟩
            intro el2 hel2
            rw [hlnb] at hel2
            cases Option.some.inj hel2
            rwa [Bool.not_eq_true] at hend
      · have hres : stripAfter g (dl :: tl) = Except.error GuardError.wrongDefine := by
          simp [stripAfter, hdef]
        rw [hres]
        right
        refine ⟨rfl, Or.inr (Or.inl ⟨g, dl :: tl, hsplit, ?_⟩)⟩
        intro dl2 tl2 heq
        cases heq
        rwa [Bool.not_eq_true] at hdef

lemma buildPublicParts_error (fs : FS) (l : List PathT)
    (h : ∃ hp ∈ l, exceptOk (strip_include_guards (read_file fs hp).lines hp) = false) :
    exceptOk (buildPublicParts fs l) = false := by
  induction l with
  | nil => simp at h
  | cons hp0 rest ih =>
    obtain ⟨hp, hmem, herr⟩ := h
    simp only [buildPublicParts]
    cases hstrip : strip_include_guards (read_file fs hp0).lines hp0 with
    | error e => rfl
    | ok ls =>
      rcases List.mem_cons.mp hmem with he | he
      · subst he
        rw [hstrip] at herr
        cases herr
      · have hrec := ih ⟨hp, he, herr⟩
        cases hrest : buildPublicParts fs rest with
        | error e => rfl
        | ok b =>
          rw [hrest] at hrec
          cases hrec

lemma amalgamate_error_of_public (A : Amalgamator) (fs : FS) (fuel : Nat)
    (h : ∃ hp ∈ A.header_files,
      exceptOk (strip_include_guards (read_file fs hp).lines hp) = false) :
    exceptOk (amalgamate A fs fuel) = false := by
  simp only [amalgamate]
  cases hb : buildHeaderParts
      ((sortedNodes A fs fuel).filter (fun n => isHeaderPath n.path)) with
  | error e => rfl
  | ok hparts =>
    have hpub := buildPublicParts_error fs A.header_files h
    cases hp2 : buildPublicParts fs A.header_files with
    | error e => rfl
    | ok pparts =>
      rw [hp2] at hpub
      cases hpub

lemma normFold_clean (comps : List PathT) :
    ∀ c ∈ normFold comps, c ≠ [] ∧ c ≠ ['.'] ∧ c ≠ ['.', '.'] := by
  have main : ∀ (cs : List PathT) (st : List PathT),
      (∀ c ∈ st, c ≠ [] ∧ c ≠ ['.'] ∧ c ≠ ['.', '.']) →
      ∀ c ∈ cs.foldl
        (fun st c =>
          if c.isEmpty || decide (c = ['.']) then st
          else if decide (c = ['.', '.']) then st.tail
          else c :: st) st,
        c ≠ [] ∧ c ≠ ['.'] ∧ c ≠ ['.', '.'] := by
    intro cs
    induction cs with
    | nil => intro st hst; simpa using hst
    | cons c0 cs ih =>
      intro st hst
      rw [List.foldl_cons]
      by_cases h1 : (c0.isEmpty || decide (c0 = ['.'])) = true
      · rw [if_pos h1]
        exact ih st hst
      · rw [if_neg h1]
        by_cases h2 : decide (c0 = ['.', '.']) = true
        · rw [if_pos h2]
          exact ih st.tail (fun c hc => hst c (List.mem_of_mem_tail hc))
        · rw [if_neg h2]
          refine ih (c0 :: st) ?_
          intro c hc
          rcases List.mem_cons.mp hc with h | h
          · subst h
            simp only [Bool.or_eq_true, decide_eq_true_eq, List.isEmpty_iff] at h1 h2
            push_neg at h1
            refine ⟨h1.1, h1.2, ?_⟩
            intro hcon
            exact h2 (by rw [hcon])
          · exact hst c h
  intro c hc
  simp only [normFold] at hc
  exact main comps [] (by simp) c (List.mem_reverse.mp hc)

lemma head_append_left {α : Type} (l l2 : List α) (h : l ≠ []) :
    (l ++ l2).head? = l.head? := by
  cases l with
  | nil => exact absurd rfl h
  | cons a l => simp

lemma renderAbs_head (comps : List PathT) : (renderAbs comps).head? = some '/' := by
  cases comps with
  | nil => simp [renderAbs]
  | cons c0 cs =>
    simp only [renderAbs, List.isEmpty_cons, if_neg]
    have main : ∀ (rest : List PathT) (acc : List Char), acc.head? = some '/' →
        (rest.foldl (fun acc c => acc ++ '/' :: c) acc).head? = some '/' := by
      intro rest
      induction rest with
      | nil => intro acc h; simpa using h
      | cons c1 rest ih =>
        intro acc h
        rw [List.foldl_cons]
        refine ih (acc ++ '/' :: c1) ?_
        have hne : acc ≠ [] := by
          intro hcon
          rw [hcon] at h
          cases h
        rw [head_append_left acc ('/' :: c1) hne]
        exact h
    rw [List.foldl_cons, List.nil_append]
    exact main cs ('/' :: c0) rfl

lemma joinResolve_canonical (dir rel : PathT) :
    canonicalAbs (joinResolve dir rel) ∧ (joinResolve dir rel).head? = some '/' := by
  constructor
  · exact ⟨normFold (splitPath (pjoin dir rel)), rfl,
      normFold_clean (splitPath (pjoin dir rel))⟩
  · exact renderAbs_head (normFold (splitPath (pjoin dir rel)))

/-- Claim C8: normalize_path applies the resolution rules in priority
order — a current-directory marker resolves against the containing
file's directory with the marker removed, else the namespaced semi
prefix resolves against the public include directory with the prefix
stripped, else the literal resolves against the containing file's
directory — and the result is always an absolute, canonical path (no
empty, current-directory or parent-directory components); the function
takes no filesystem argument, so no existence check is possible. -/
theorem normalize_path_spec (A : Amalgamator) (ip cf : PathT) :
    canonicalAbs (A.normalize_path ip cf) ∧
      (A.normalize_path ip cf).head? = some '/' ∧
      (startsWithL "./".data ip = true →
        A.normalize_path ip cf = joinResolve (parentPath cf) (ip.drop 2)) ∧
      (startsWithL "./".data ip = false → startsWithL "semi/".data ip = true →
        A.normalize_path ip cf = joinResolve A.include_dir (ip.drop 5)) ∧
      (startsWithL "./".data ip = false → startsWithL "semi/".data ip = false →
        A.normalize_path ip cf = joinResolve (parentPath cf) ip) := by
  have hform : A.normalize_path ip cf = joinResolve (parentPath cf) (ip.drop 2) ∨
      A.normalize_path ip cf = joinResolve A.include_dir (ip.drop 5) ∨
      A.normalize_path ip cf = joinResolve (parentPath cf) ip := by
    simp only [Amalgamator.normalize_path]
    by_cases h1 : startsWithL "./".data ip = true
    · rw [if_pos h1]
      exact Or.inl rfl
    · rw [if_neg h1]
      by_cases h2 : startsWithL "semi/".data ip = true
      · rw [if_pos h2]
        exact Or.inr (Or.inl rfl)
      · rw [if_neg h2]
        exact Or.inr (Or.inr rfl)
  refine ⟨?_, ?_, ?_, ?_, ?_⟩
  · rcases hform with h | h | h <;> rw [h]
    · exact (joinResolve_canonical _ _).1
    · exact (joinResolve_canonical _ _).1
    · exact (joinResolve_canonical _ _).1
  · rcases hform with h | h | h <;> rw [h]
    · exact (joinResolve_canonical _ _).2
    · exact (joinResolve_canonical _ _).2
    · exact (joinResolve_canonical _ _).2
  · intro h1
    simp [Amalgamator.normalize_path, h1]
  · intro h1 h2
    simp [Amalgamator.normalize_path, h1, h2]
  · intro h1 h2
    simp [Amalgamator.normalize_path, h1, h2]

/-- Witness for claim C8: a concrete current-directory include resolves
against the containing directory to a canonical absolute path. -/
theorem normalize_path_spec_witness :
    canonicalAbs (projW.normalize_path "./x.h".data "/p/src/a.c".data) ∧
      projW.normalize_path "./x.h".data "/p/src/a.c".data =
        joinResolve (parentPath "/p/src/a.c".data) ("./x.h".data.drop 2) :=
  ⟨(normalize_path_spec projW "./x.h".data "/p/src/a.c".data).1,
    (normalize_path_spec projW "./x.h".data "/p/src/a.c".data).2.2.1 (by decide)⟩

lemma lookupF_isSome_iff (l : List (PathT × FileNode)) (q : PathT) :
    (lookupF l q).isSome = true ↔ q ∈ l.map Prod.fst := by
  induction l with
  | nil => simp [lookupF]
  | cons e l ih =>
    obtain ⟨k, n⟩ := e
    simp only [lookupF, List.map_cons, List.mem_cons]
    by_cases hk : k = q
    · subst hk
      rw [if_pos rfl]
      exact ⟨fun _ => Or.inl rfl, fun _ => rfl⟩
    · rw [if_neg hk]
      rw [ih]
      constructor
      · intro h
        exact Or.inr h
      · intro h
        rcases h with h | h
        · exact absurd h.symm hk
        · exact h

lemma addDep_keys (l : List (PathT × FileNode)) (p rp : PathT) :
    (addDep l p rp).map Prod.fst = l.map Prod.fst := by
  induction l with
  | nil => simp [addDep]
  | cons e l ih =>
    obtain ⟨k, n⟩ := e
    simp only [addDep]
    by_cases hk : k = p
    · rw [if_pos hk]
      simp
    · rw [if_neg hk]
      simp [ih]

lemma mem_addDep (l : List (PathT × FileNode)) (p rp : PathT) :
    ∀ e ∈ addDep l p rp, ∃ n, (e.1, n) ∈ l ∧ e.2.path = n.path ∧ e.2.lines = n.lines ∧
      (e.2.dependencies = n.dependencies ∨
        (e.2.dependencies = n.dependencies ++ [rp] ∧ rp ∉ n.dependencies)) := by
  induction l with
  | nil => simp [addDep]
  | cons e0 l ih =>
    obtain ⟨k, n0⟩ := e0
    intro e he
    simp only [addDep] at he
    by_cases hk : k = p
    · rw [if_pos hk] at he
      rcases List.mem_cons.mp he with h | h
      · subst h
        by_cases hrp : rp ∈ n0.dependencies
        · exact ⟨n0, List.mem_cons_self _ _, rfl, rfl, Or.inl (by simp [hrp])⟩
        · exact ⟨n0, List.mem_cons_self _ _, rfl, rfl, Or.inr ⟨by simp [hrp], hrp⟩⟩
      · exact ⟨e.2, List.mem_cons_of_mem _ (by simpa using h), rfl, rfl, Or.inl rfl⟩
    · rw [if_neg hk] at he
      rcases List.mem_cons.mp he with h | h
      · subst h
        exact ⟨n0, List.mem_cons_self _ _, rfl, rfl, Or.inl rfl⟩
      · obtain ⟨n, hmem, h1, h2, h3⟩ := ih e h
        exact ⟨n, List.mem_cons_of_mem _ hmem, h1, h2, h3⟩

lemma lookupF_append (l l2 : List (PathT × FileNode)) (q : PathT) :
    lookupF (l ++ l2) q =
      match lookupF l q with
      | some n => some n
      | none => lookupF l2 q := by
  induction l with
  | nil => simp [lookupF]
  | cons e l ih =>
    obtain ⟨k, n⟩ := e
    simp only [List.cons_append, lookupF]
    by_cases hk : k = q
    · rw [if_pos hk, if_pos hk]
    · rw [if_neg hk, if_neg hk]
      exact ih

lemma lookupF_addDep (l : List (PathT × FileNode)) (p rp q : PathT) :
    ((lookupF (addDep l p rp) q).isSome) = (lookupF l q).isSome := by
  by_cases h : (lookupF l q).isSome = true
  · have h2 : q ∈ (addDep l p rp).map Prod.fst := by
      rw [addDep_keys]
      exact (lookupF_isSome_iff l q).mp h
    rw [h, (lookupF_isSome_iff _ q).mpr h2]
  · have h1 : (lookupF l q).isSome = false := by
      cases hv : (lookupF l q).isSome
      · rfl
      · exact absurd hv h
    have h2 : q ∉ (addDep l p rp).map Prod.fst := by
      rw [addDep_keys]
      intro hmem
      rw [(lookupF_isSome_iff l q).mpr hmem] at h1
      cases h1
    rw [h1]
    cases hv : (lookupF (addDep l p rp) q).isSome
    · rfl
    · exact absurd ((lookupF_isSome_iff _ q).mp hv) h2

lemma processLine_processed (A : Amalgamator) (fs : FS) (p : PathT) (st : DiscState)
    (l : Line) : (processLine A fs p st l).processed = st.processed := by
  simp only [processLine]
  cases lineTarget A fs p l with
  | none => rfl
  | some rp =>
    simp only [enqueueDep, recordDep, registerNew]
    by_cases h1 : (lookupF st.files rp).isSome = true
    · rw [if_pos h1]
      by_cases h2 : p ∈ st.processed
      · rw [if_pos h2]
      · rw [if_neg h2]
    · rw [if_neg h1]
      by_cases h2 : p ∈ st.processed
      · rw [if_pos h2]
      · rw [if_neg h2]

lemma processLine_files_isSome (A : Amalgamator) (fs : FS) (p : PathT) (st : DiscState)
    (l : Line) (q : PathT) (h : (lookupF st.files q).isSome = true) :
    (lookupF (processLine A fs p st l).files q).isSome = true := by
  simp only [processLine]
  cases lineTarget A fs p l with
  | none => exact h
  | some rp =>
    simp only [enqueueDep, recordDep, registerNew]
    have hq : q ∈ st.files.map Prod.fst := (lookupF_isSome_iff st.files q).mp h
    by_cases h1 : (lookupF st.files rp).isSome = true
    · rw [if_pos h1]
      by_cases h2 : p ∈ st.processed
      · rw [if_pos h2]
        rw [lookupF_addDep]
        exact h
      · rw [if_neg h2]
        rw [lookupF_addDep]
        exact h
    · rw [if_neg h1]
      have hq2 : (lookupF (st.files ++ [(rp, read_file fs rp)]) q).isSome = true := by
        rw [lookupF_isSome_iff]
        simp only [List.map_append, List.mem_append]
        exact Or.inl hq
      by_cases h2 : p ∈ st.processed
      · rw [if_pos h2]
        rw [lookupF_addDep]
        exact hq2
      · rw [if_neg h2]
        rw [lookupF_addDep]
        exact hq2

lemma processNode_files_isSome (A : Amalgamator) (fs : FS) (st : DiscState) (p q : PathT)
    (h : (lookupF st.files q).isSome = true) :
    (lookupF (processNode A fs st p).files q).isSome = true := by
  simp only [processNode]
  cases lookupF st.files p with
  | none => exact h
  | some node =>
    have main : ∀ (ls : List Line) (t : DiscState),
        (lookupF t.files q).isSome = true →
        (lookupF (ls.foldl (processLine A fs p) t).files q).isSome = true := by
      intro ls
      induction ls with
      | nil => intro t ht; exact ht
      | cons l0 ls ih =>
        intro t ht
        rw [List.foldl_cons]
        exact ih (processLine A fs p t l0) (processLine_files_isSome A fs p t l0 q ht)
    exact main node.lines st h

lemma discover_step_files_isSome (A : Amalgamator) (fs : FS) (st : DiscState) (q : PathT)
    (h : (lookupF st.files q).isSome = true) :
    (lookupF (discover_step A fs st).files q).isSome = true := by
  cases hg : st.to_process.getLast? with
  | none =>
    have he : discover_step A fs st = st := by
      simp [discover_step, hg]
    rw [he]
    exact h
  | some p =>
    by_cases h2 : p ∈ st.processed
    · have he : discover_step A fs st =
          { st with to_process := st.to_process.dropLast } := by
        simp [discover_step, hg, h2]
      rw [he]
      exact h
    · have he : discover_step A fs st =
          processNode A fs { st with to_process := st.to_process.dropLast } p := by
        simp [discover_step, hg, h2]
      rw [he]
      exact processNode_files_isSome A fs _ p q h

lemma discover_loop_files_isSome (A : Amalgamator) (fs : FS) :
    ∀ (fuel : Nat) (st : DiscState) (q : PathT),
      (lookupF st.files q).isSome = true →
      (lookupF (discover_loop A fs fuel st).files q).isSome = true := by
  intro fuel
  induction fuel with
  | zero => intro st q h; exact h
  | succ n ih =>
    intro st q h
    simp only [discover_loop]
    by_cases he : st.to_process.isEmpty = true
    · rw [if_pos he]
      exact h
    · rw [if_neg he]
      exact ih (discover_step A fs st) q (discover_step_files_isSome A fs st q h)

lemma read_file_path_eq (fs : FS) (p : PathT) : (read_file fs p).path = p := by
  simp only [read_file]
  cases fsLookup fs p
  · rfl
  · rfl

lemma read_file_deps_nil (fs : FS) (p : PathT) : (read_file fs p).dependencies = [] := by
  simp only [read_file]
  cases fsLookup fs p
  · rfl
  · rfl

lemma lookupF_none_not_mem (l : List (PathT × FileNode)) (q : PathT)
    (h : (lookupF l q).isSome = false) : q ∉ l.map Prod.fst := by
  intro hmem
  rw [(lookupF_isSome_iff l q).mpr hmem] at h
  cases h

lemma lookupF_append_isSome (l l2 : List (PathT × FileNode)) (q : PathT)
    (h : (lookupF l q).isSome = true) : (lookupF (l ++ l2) q).isSome = true := by
  rw [lookupF_append]
  cases hv : lookupF l q with
  | none =>
    rw [hv] at h
    cases h
  | some n => rfl

lemma nodup_append_singleton {α : Type} (l : List α) (a : α) (h : l.Nodup)
    (ha : a ∉ l) : (l ++ [a]).Nodup := by
  rw [List.nodup_append]
  refine ⟨h, List.nodup_singleton a, ?_⟩
  intro x hx hxa
  rw [List.mem_singleton.mp hxa] at hx
  exact ha hx

lemma lineTarget_some (A : Amalgamator) (fs : FS) (p : PathT) (l : Line) (rp : PathT)
    (h : lineTarget A fs p l = some rp) :
    fexists fs rp = true ∧ rp ∉ A.header_files := by
  simp only [lineTarget] at h
  cases hml : matchLocalInclude l with
  | none => simp [hml] at h
  | some ip =>
    simp only [hml] at h
    by_cases hang : (decide ('<' ∈ ip) || decide ('>' ∈ ip)) = true
    · rw [if_pos hang] at h
      cases h
    · rw [if_neg hang] at h
      simp only [lineTargetChecks] at h
      by_cases hex : fexists fs (A.normalize_path ip p) = true
      · rw [if_pos hex] at h
        by_cases hhd : A.normalize_path ip p ∈ A.header_files
        · rw [if_pos hhd] at h
          cases h
        · rw [if_neg hhd] at h
          have : A.normalize_path ip p = rp := Option.some.inj h
          rw [← this]
          exact ⟨hex, hhd⟩
      · rw [if_neg hex] at h
        cases h

lemma registerNew_spec (A : Amalgamator) (fs : FS) (seeds : List PathT) (st : DiscState)
    (rp : PathT) (hinv : DiscFullInv A fs seeds st)
    (hrp : fexists fs rp = true ∧ rp ∉ A.header_files) :
    DiscFullInv A fs seeds (registerNew fs st rp) ∧
      (lookupF (registerNew fs st rp).files rp).isSome = true ∧
      (registerNew fs st rp).to_process = st.to_process ∧
      (registerNew fs st rp).processed = st.processed ∧
      (∀ q, (lookupF st.files q).isSome = true →
        (lookupF (registerNew fs st rp).files q).isSome = true) := by
  simp only [registerNew]
  by_cases hreg : (lookupF st.files rp).isSome = true
  · rw [if_pos hreg]
    exact ⟨hinv, hreg, rfl, rfl, fun q hq => hq⟩
  · rw [if_neg hreg]
    have hregf : (lookupF st.files rp).isSome = false := by
      cases hv : (lookupF st.files rp).isSome
      · rfl
      · exact absurd hv hreg
    have hnotmem : rp ∉ st.files.map Prod.fst := lookupF_none_not_mem st.files rp hregf
    have hkeys : (st.files ++ [(rp, read_file fs rp)]).map Prod.fst =
        st.files.map Prod.fst ++ [rp] := by
      simp
    have hrpmem : (lookupF (st.files ++ [(rp, read_file fs rp)]) rp).isSome = true := by
      rw [lookupF_isSome_iff, hkeys]
      exact List.mem_append_right _ (List.mem_singleton_self rp)
    refine ⟨⟨⟨hinv.base.proc, ?_, ?_⟩, ?_, ?_, ?_, ?_, ?_⟩, hrpmem, rfl, rfl, ?_⟩
    · intro q hq
      exact lookupF_append_isSome st.files _ q (hinv.base.reg q hq)
    · intro e he
      rcases List.mem_append.mp he with h | h
      · exact hinv.base.lns e h
      · rw [List.mem_singleton.mp h]
    · rw [hkeys]
      exact nodup_append_singleton _ rp hinv.keysNodup hnotmem
    · rw [hkeys, ← hinv.loadsEq]
    · intro e he
      rcases List.mem_append.mp he with h | h
      · exact hinv.paths e h
      · rw [List.mem_singleton.mp h]
        exact read_file_path_eq fs rp
    · intro e he
      rcases List.mem_append.mp he with h | h
      · obtain ⟨hnd, hdeps⟩ := hinv.depsOkay e h
        refine ⟨hnd, ?_⟩
        intro q hq
        obtain ⟨h1, h2, h3⟩ := hdeps q hq
        exact ⟨h1, h2, lookupF_append_isSome st.files _ q h3⟩
      · rw [List.mem_singleton.mp h]
        refine ⟨?_, ?_⟩
        · rw [read_file_deps_nil]
          exact List.nodup_nil
        · intro q hq
          rw [read_file_deps_nil] at hq
          cases hq
    · intro k hk
      rw [hkeys] at hk
      rcases List.mem_append.mp hk with h | h
      · exact hinv.keysOrigin k h
      · rw [List.mem_singleton.mp h]
        exact Or.inr hrp
    · intro q hq
      exact lookupF_append_isSome st.files _ q hq

lemma mem_dropLast {α : Type} (l : List α) (x : α) (h : x ∈ l.dropLast) : x ∈ l := by
  induction l with
  | nil => simp at h
  | cons a l ih =>
    cases l with
    | nil => simp at h
    | cons b l2 =>
      rw [List.dropLast_cons₂] at h
      rcases List.mem_cons.mp h with h2 | h2
      · rw [h2]
        exact List.mem_cons_self a _
      · exact List.mem_cons_of_mem a (ih h2)

lemma recordDep_spec (A : Amalgamator) (fs : FS) (seeds : List PathT) (st : DiscState)
    (p rp : PathT) (hinv : DiscFullInv A fs seeds st)
    (hrp : fexists fs rp = true ∧ rp ∉ A.header_files)
    (hreg : (lookupF st.files rp).isSome = true) :
    DiscFullInv A fs seeds (recordDep st p rp) ∧
      (recordDep st p rp).to_process = st.to_process ∧
      (recordDep st p rp).processed = st.processed ∧
      (∀ q, (lookupF st.files q).isSome = true →
        (lookupF (recordDep st p rp).files q).isSome = true) := by
  have hkeys : (addDep st.files p rp).map Prod.fst = st.files.map Prod.fst :=
    addDep_keys st.files p rp
  have hmono : ∀ q, (lookupF st.files q).isSome = true →
      (lookupF (addDep st.files p rp) q).isSome = true := by
    intro q hq
    rw [lookupF_addDep]
    exact hq
  simp only [recordDep]
  refine ⟨⟨⟨hinv.base.proc, ?_, ?_⟩, ?_, ?_, ?_, ?_, ?_⟩, trivial, trivial, hmono⟩
  · intro q hq
    exact hmono q (hinv.base.reg q hq)
  · intro e he
    obtain ⟨n, hmem, hpath, hlines, _⟩ := mem_addDep st.files p rp e he
    rw [hlines]
    exact hinv.base.lns (e.1, n) hmem
  · rw [hkeys]
    exact hinv.keysNodup
  · rw [hkeys]
    exact hinv.loadsEq
  · intro e he
    obtain ⟨n, hmem, hpath, _, _⟩ := mem_addDep st.files p rp e he
    rw [hpath]
    exact hinv.paths (e.1, n) hmem
  · intro e he
    obtain ⟨n, hmem, _, _, hdeps⟩ := mem_addDep st.files p rp e he
    obtain ⟨hnd, htrip⟩ := hinv.depsOkay (e.1, n) hmem
    rcases hdeps with hsame | ⟨happ, hnotin⟩
    · rw [hsame]
      refine ⟨hnd, ?_⟩
      intro q hq
      obtain ⟨h1, h2, h3⟩ := htrip q hq
      exact ⟨h1, h2, hmono q h3⟩
    · rw [happ]
      refine ⟨nodup_append_singleton _ rp hnd hnotin, ?_⟩
      intro q hq
      rcases List.mem_append.mp hq with h | h
      · obtain ⟨h1, h2, h3⟩ := htrip q h
        exact ⟨h1, h2, hmono q h3⟩
      · rw [List.mem_singleton.mp h]
        exact ⟨hrp.1, hrp.2, hmono rp hreg⟩
  · intro k hk
    rw [hkeys] at hk
    exact hinv.keysOrigin k hk

lemma enqueueDep_spec (A : Amalgamator) (fs : FS) (seeds : List PathT) (st : DiscState)
    (p rp : PathT) (hinv : DiscFullInv A fs seeds st)
    (hreg : (lookupF st.files rp).isSome = true) :
    DiscFullInv A fs seeds (enqueueDep st p rp) := by
  simp only [enqueueDep]
  by_cases hp : p ∈ st.processed
  · rw [if_pos hp]
    exact hinv
  · rw [if_neg hp]
    refine ⟨⟨hinv.base.proc, ?_, hinv.base.lns⟩, hinv.keysNodup, hinv.loadsEq,
      hinv.paths, hinv.depsOkay, hinv.keysOrigin⟩
    intro q hq
    rcases List.mem_append.mp hq with h | h
    · exact hinv.base.reg q h
    · rw [List.mem_singleton.mp h]
      exact hreg

lemma processLine_inv (A : Amalgamator) (fs : FS) (seeds : List PathT) (p : PathT)
    (st : DiscState) (l : Line) (hinv : DiscFullInv A fs seeds st) :
    DiscFullInv A fs seeds (processLine A fs p st l) := by
  cases hml : lineTarget A fs p l with
  | none =>
    simp only [processLine, hml]
    exact hinv
  | some rp =>
    simp only [processLine, hml]
    obtain ⟨hx, hh⟩ := lineTarget_some A fs p l rp hml
    obtain ⟨hinv1, hreg1, _, _, _⟩ := registerNew_spec A fs seeds st rp hinv ⟨hx, hh⟩
    obtain ⟨hinv2, _, _, hmono2⟩ :=
      recordDep_spec A fs seeds _ p rp hinv1 ⟨hx, hh⟩ hreg1
    exact enqueueDep_spec A fs seeds _ p rp hinv2 (hmono2 rp hreg1)

lemma processNode_inv (A : Amalgamator) (fs : FS) (seeds : List PathT) (st : DiscState)
    (p : PathT) (hinv : DiscFullInv A fs seeds st) :
    DiscFullInv A fs seeds (processNode A fs st p) := by
  simp only [processNode]
  cases lookupF st.files p with
  | none => exact hinv
  | some node =>
    have main : ∀ (ls : List Line) (t : DiscState), DiscFullInv A fs seeds t →
        DiscFullInv A fs seeds (ls.foldl (processLine A fs p) t) := by
      intro ls
      induction ls with
      | nil => intro t ht; exact ht
      | cons l0 ls ih =>
        intro t ht
        rw [List.foldl_cons]
        exact ih (processLine A fs p t l0) (processLine_inv A fs seeds p t l0 ht)
    exact main node.lines st hinv

lemma dropLast_state_inv (A : Amalgamator) (fs : FS) (seeds : List PathT)
    (st : DiscState) (hinv : DiscFullInv A fs seeds st) :
    DiscFullInv A fs seeds { st with to_process := st.to_process.dropLast } := by
  refine ⟨⟨hinv.base.proc, ?_, hinv.base.lns⟩, hinv.keysNodup, hinv.loadsEq,
    hinv.paths, hinv.depsOkay, hinv.keysOrigin⟩
  intro q hq
  exact hinv.base.reg q (mem_dropLast _ q hq)

lemma discover_step_inv (A : Amalgamator) (fs : FS) (seeds : List PathT)
    (st : DiscState) (hinv : DiscFullInv A fs seeds st) :
    DiscFullInv A fs seeds (discover_step A fs st) := by
  cases hg : st.to_process.getLast? with
  | none =>
    have he : discover_step A fs st = st := by
      simp [discover_step, hg]
    rw [he]
    exact hinv
  | some p =>
    by_cases h2 : p ∈ st.processed
    · have he : discover_step A fs st =
          { st with to_process := st.to_process.dropLast } := by
        simp [discover_step, hg, h2]
      rw [he]
      exact dropLast_state_inv A fs seeds st hinv
    · have he : discover_step A fs st =
          processNode A fs { st with to_process := st.to_process.dropLast } p := by
        simp [discover_step, hg, h2]
      rw [he]
      exact processNode_inv A fs seeds _ p (dropLast_state_inv A fs seeds st hinv)

lemma discover_loop_inv (A : Amalgamator) (fs : FS) (seeds : List PathT) :
    ∀ (fuel : Nat) (st : DiscState), DiscFullInv A fs seeds st →
      DiscFullInv A fs seeds (discover_loop A fs fuel st) := by
  intro fuel
  induction fuel with
  | zero => intro st h; exact h
  | succ n ih =>
    intro st h
    simp only [discover_loop]
    by_cases he : st.to_process.isEmpty = true
    · rw [if_pos he]
      exact h
    · rw [if_neg he]
      exact ih (discover_step A fs st) (discover_step_inv A fs seeds st h)

lemma discover_init_inv (A : Amalgamator) (fs : FS) (seeds : List PathT)
    (hnd : seeds.Nodup) : DiscFullInv A fs seeds (discover_init fs seeds) := by
  have hkeys : (discover_init fs seeds).files.map Prod.fst = seeds := by
    simp only [discover_init, List.map_map]
    have : (Prod.fst ∘ fun p => (p, read_file fs p)) = fun p : PathT => p := by
      funext p
      rfl
    rw [this, List.map_id']
  have hmem : ∀ e ∈ (discover_init fs seeds).files, ∃ q, e = (q, read_file fs q) := by
    intro e he
    simp only [discover_init] at he
    obtain ⟨q, _, hq⟩ := List.mem_map.mp he
    exact ⟨q, hq.symm⟩
  refine ⟨⟨rfl, ?_, ?_⟩, ?_, ?_, ?_, ?_, ?_⟩
  · intro q hq
    rw [lookupF_isSome_iff, hkeys]
    exact hq
  · intro e he
    obtain ⟨q, hq⟩ := hmem e he
    rw [hq]
  · rw [hkeys]
    exact hnd
  · rw [hkeys]
    rfl
  · intro e he
    obtain ⟨q, hq⟩ := hmem e he
    rw [hq]
    exact read_file_path_eq fs q
  · intro e he
    obtain ⟨q, hq⟩ := hmem e he
    rw [hq]
    refine ⟨?_, ?_⟩
    · rw [read_file_deps_nil]
      exact List.nodup_nil
    · intro q2 hq2
      rw [read_file_deps_nil] at hq2
      cases hq2
  · intro k hk
    rw [hkeys] at hk
    exact Or.inl hk

/-- Claim C6: after any number of discovery iterations from nodup seeds,
the registry holds at most one File Unit per canonical path, the ghost
load log equals the registration order (so each file is read exactly
once, at first registration), every unit carries exactly the loaded
content of its path, no dependency set holds a duplicate edge, every
recorded edge target exists on disk, is not one of the fixed excluded
public headers, and is registered, and every non-seed registry key exists
and is not excluded. -/
theorem discovery_invariants (A : Amalgamator) (fs : FS) (seeds : List PathT)
    (fuel : Nat) (hnd : seeds.Nodup) :
    (((discover_loop A fs fuel (discover_init fs seeds)).files.map Prod.fst).Nodup ∧
      (discover_loop A fs fuel (discover_init fs seeds)).loads =
        (discover_loop A fs fuel (discover_init fs seeds)).files.map Prod.fst ∧
      (discover_loop A fs fuel (discover_init fs seeds)).loads.Nodup) ∧
      (∀ e ∈ (discover_loop A fs fuel (discover_init fs seeds)).files,
        e.2.lines = (read_file fs e.1).lines ∧ e.2.dependencies.Nodup ∧
        ∀ q ∈ e.2.dependencies, fexists fs q = true ∧ q ∉ A.header_files ∧
          (lookupF (discover_loop A fs fuel (discover_init fs seeds)).files q).isSome
            = true) ∧
      (∀ k ∈ (discover_loop A fs fuel (discover_init fs seeds)).files.map Prod.fst,
        k ∈ seeds ∨ (fexists fs k = true ∧ k ∉ A.header_files)) := by
  have hinv := discover_loop_inv A fs seeds fuel (discover_init fs seeds)
    (discover_init_inv A fs seeds hnd)
  refine ⟨⟨hinv.keysNodup, hinv.loadsEq, ?_⟩, ?_, hinv.keysOrigin⟩
  · rw [hinv.loadsEq]
    exact hinv.keysNodup
  · intro e he
    refine ⟨hinv.base.lns e he, (hinv.depsOkay e he).1, ?_⟩
    exact (hinv.depsOkay e he).2

/-- Witness for claim C6: a concrete discovery run where the same include
line occurs twice; the registry keys are unique, loads match
registrations, and all dependency edges are well formed. -/
theorem discovery_invariants_witness :
    (((discover_loop projW fsDisc 6 (discover_init fsDisc ["/p/src/m.c".data])).files.map
          Prod.fst).Nodup ∧
      (discover_loop projW fsDisc 6 (discover_init fsDisc ["/p/src/m.c".data])).loads =
        (discover_loop projW fsDisc 6
          (discover_init fsDisc ["/p/src/m.c".data])).files.map Prod.fst ∧
      (discover_loop projW fsDisc 6
        (discover_init fsDisc ["/p/src/m.c".data])).loads.Nodup) ∧
      (∀ e ∈ (discover_loop projW fsDisc 6 (discover_init fsDisc ["/p/src/m.c".data])).files,
        e.2.lines = (read_file fsDisc e.1).lines ∧ e.2.dependencies.Nodup ∧
        ∀ q ∈ e.2.dependencies, fexists fsDisc q = true ∧ q ∉ projW.header_files ∧
          (lookupF (discover_loop projW fsDisc 6
            (discover_init fsDisc ["/p/src/m.c".data])).files q).isSome = true) ∧
      (∀ k ∈ (discover_loop projW fsDisc 6
          (discover_init fsDisc ["/p/src/m.c".data])).files.map Prod.fst,
        k ∈ ["/p/src/m.c".data] ∨
          (fexists fsDisc k = true ∧ k ∉ projW.header_files)) :=
  discovery_invariants projW fsDisc ["/p/src/m.c".data] 6 (by decide)

lemma lookupF_mem (l : List (PathT × FileNode)) (q : PathT) (n : FileNode)
    (h : lookupF l q = some n) : (q, n) ∈ l := by
  induction l with
  | nil => simp [lookupF] at h
  | cons e l ih =>
    obtain ⟨k, n0⟩ := e
    simp only [lookupF] at h
    by_cases hk : k = q
    · rw [if_pos hk] at h
      subst hk
      rw [Option.some.inj h]
      exact List.mem_cons_self _ _
    · rw [if_neg hk] at h
      exact List.mem_cons_of_mem _ (ih h)

lemma fsLookup_mem (fs : FS) (q : PathT) (raw : List Line)
    (h : fsLookup fs q = some raw) : (q, raw) ∈ fs := by
  induction fs with
  | nil => simp [fsLookup] at h
  | cons e fs ih =>
    obtain ⟨k, c⟩ := e
    simp only [fsLookup] at h
    by_cases hk : k = q
    · rw [if_pos hk] at h
      subst hk
      rw [Option.some.inj h]
      exact List.mem_cons_self _ _
    · rw [if_neg hk] at h
      exact List.mem_cons_of_mem _ (ih h)

lemma registerNew_term (fs : FS) (st : DiscState) (rp : PathT)
    (h : DiscTermInv fs st) :
    DiscTermInv fs (registerNew fs st rp) ∧
      (lookupF (registerNew fs st rp).files rp).isSome = true ∧
      (registerNew fs st rp).to_process = st.to_process ∧
      (registerNew fs st rp).processed = st.processed ∧
      (∀ q, (lookupF st.files q).isSome = true →
        (lookupF (registerNew fs st rp).files q).isSome = true) := by
  simp only [registerNew]
  by_cases hreg : (lookupF st.files rp).isSome = true
  · rw [if_pos hreg]
    exact ⟨h, hreg, rfl, rfl, fun q hq => hq⟩
  · rw [if_neg hreg]
    have hrpmem : (lookupF (st.files ++ [(rp, read_file fs rp)]) rp).isSome = true := by
      rw [lookupF_isSome_iff]
      simp only [List.map_append, List.map_cons, List.map_nil]
      exact List.mem_append_right _ (List.mem_singleton_self rp)
    refine ⟨⟨h.proc, ?_, ?_⟩, hrpmem, rfl, rfl, ?_⟩
    · intro q hq
      exact lookupF_append_isSome st.files _ q (h.reg q hq)
    · intro e he
      rcases List.mem_append.mp he with h2 | h2
      · exact h.lns e h2
      · rw [List.mem_singleton.mp h2]
    · intro q hq
      exact lookupF_append_isSome st.files _ q hq

lemma recordDep_term (fs : FS) (st : DiscState) (p rp : PathT)
    (h : DiscTermInv fs st) :
    DiscTermInv fs (recordDep st p rp) ∧
      (recordDep st p rp).to_process = st.to_process ∧
      (recordDep st p rp).processed = st.processed ∧
      (∀ q, (lookupF st.files q).isSome = true →
        (lookupF (recordDep st p rp).files q).isSome = true) := by
  have hmono : ∀ q, (lookupF st.files q).isSome = true →
      (lookupF (addDep st.files p rp) q).isSome = true := by
    intro q hq
    rw [lookupF_addDep]
    exact hq
  simp only [recordDep]
  refine ⟨⟨h.proc, ?_, ?_⟩, trivial, trivial, hmono⟩
  · intro q hq
    exact hmono q (h.reg q hq)
  · intro e he
    obtain ⟨n, hmem, _, hlines, _⟩ := mem_addDep st.files p rp e he
    rw [hlines]
    exact h.lns (e.1, n) hmem

lemma enqueueDep_term (fs : FS) (st : DiscState) (p rp : PathT)
    (h : DiscTermInv fs st) (hreg : (lookupF st.files rp).isSome = true) :
    DiscTermInv fs (enqueueDep st p rp) := by
  simp only [enqueueDep]
  by_cases hp : p ∈ st.processed
  · rw [if_pos hp]
    exact h
  · rw [if_neg hp]
    refine ⟨h.proc, ?_, h.lns⟩
    intro q hq
    rcases List.mem_append.mp hq with h2 | h2
    · exact h.reg q h2
    · rw [List.mem_singleton.mp h2]
      exact hreg

lemma processLine_term (A : Amalgamator) (fs : FS) (p : PathT) (st : DiscState)
    (l : Line) (h : DiscTermInv fs st) : DiscTermInv fs (processLine A fs p st l) := by
  cases hml : lineTarget A fs p l with
  | none =>
    simp only [processLine, hml]
    exact h
  | some rp =>
    simp only [processLine, hml]
    obtain ⟨h1, hreg1, _, _, _⟩ := registerNew_term fs st rp h
    obtain ⟨h2, _, _, hmono2⟩ := recordDep_term fs _ p rp h1
    exact enqueueDep_term fs _ p rp h2 (hmono2 rp hreg1)

lemma processLine_toProcess (A : Amalgamator) (fs : FS) (p : PathT) (st : DiscState)
    (l : Line) (hproc : st.processed = []) :
    (processLine A fs p st l).to_process =
      st.to_process ++
        (match lineTarget A fs p l with
          | some rp => [rp]
          | none => []) := by
  cases hml : lineTarget A fs p l with
  | none =>
    simp [processLine, hml]
  | some rp =>
    simp only [processLine, hml]
    have hp1 : (recordDep (registerNew fs st rp) p rp).processed = [] := by
      simp only [recordDep, registerNew]
      by_cases hreg : (lookupF st.files rp).isSome = true
      · rw [if_pos hreg]
        exact hproc
      · rw [if_neg hreg]
        exact hproc
    have hq1 : (recordDep (registerNew fs st rp) p rp).to_process = st.to_process := by
      simp only [recordDep, registerNew]
      by_cases hreg : (lookupF st.files rp).isSome = true
      · rw [if_pos hreg]
      · rw [if_neg hreg]
    simp only [enqueueDep, hp1]
    rw [if_neg (List.not_mem_nil p)]
    rw [hq1]

lemma foldl_processLine_toProcess (A : Amalgamator) (fs : FS) (p : PathT) :
    ∀ (ls : List Line) (st : DiscState), st.processed = [] →
      ((ls.foldl (processLine A fs p) st).to_process =
        st.to_process ++ ls.filterMap (lineTarget A fs p)) ∧
        (ls.foldl (processLine A fs p) st).processed = [] := by
  intro ls
  induction ls with
  | nil =>
    intro st hproc
    exact ⟨by simp, hproc⟩
  | cons l0 ls ih =>
    intro st hproc
    rw [List.foldl_cons]
    have hproc1 : (processLine A fs p st l0).processed = [] := by
      rw [processLine_processed]
      exact hproc
    obtain ⟨h1, h2⟩ := ih (processLine A fs p st l0) hproc1
    refine ⟨?_, h2⟩
    rw [h1, processLine_toProcess A fs p st l0 hproc, List.filterMap_cons]
    cases lineTarget A fs p l0 with
    | none => simp
    | some rp => simp

lemma processNode_toProcess (A : Amalgamator) (fs : FS) (st : DiscState) (p : PathT)
    (hterm : DiscTermInv fs st) (hreg : (lookupF st.files p).isSome = true) :
    (processNode A fs st p).to_process = st.to_process ++ pushCandidates A fs p ∧
      DiscTermInv fs (processNode A fs st p) := by
  simp only [processNode]
  cases hl : lookupF st.files p with
  | none =>
    rw [hl] at hreg
    cases hreg
  | some node =>
    have hlines : node.lines = (read_file fs p).lines :=
      hterm.lns (p, node) (lookupF_mem st.files p node hl)
    have hterm2 : ∀ (ls : List Line) (t : DiscState), DiscTermInv fs t →
        DiscTermInv fs (ls.foldl (processLine A fs p) t) := by
      intro ls
      induction ls with
      | nil => intro t ht; exact ht
      | cons l0 ls ih =>
        intro t ht
        rw [List.foldl_cons]
        exact ih (processLine A fs p t l0) (processLine_term A fs p t l0 ht)
    refine ⟨?_, hterm2 node.lines st hterm⟩
    rw [(foldl_processLine_toProcess A fs p node.lines st hterm.proc).1, hlines]
    rfl

lemma discover_step_spec (A : Amalgamator) (fs : FS) (st : DiscState)
    (hterm : DiscTermInv fs st) (p : PathT) (rest : List PathT)
    (hq : st.to_process = rest ++ [p]) :
    (discover_step A fs st).to_process = rest ++ pushCandidates A fs p ∧
      DiscTermInv fs (discover_step A fs st) := by
  have hlast : st.to_process.getLast? = some p := by
    rw [hq]
    exact List.getLast?_concat rest
  have hdrop : st.to_process.dropLast = rest := by
    rw [hq]
    exact List.dropLast_concat
  have hnp : p ∉ st.processed := by
    rw [hterm.proc]
    exact List.not_mem_nil p
  have he : discover_step A fs st = processNode A fs { st with to_process := rest } p := by
    simp [discover_step, hlast, hnp, hdrop]
  rw [he]
  have hterm0 : DiscTermInv fs { st with to_process := rest } := by
    refine ⟨hterm.proc, ?_, hterm.lns⟩
    intro q hq2
    refine hterm.reg q ?_
    rw [hq]
    exact List.mem_append_left _ hq2
  have hpreg : (lookupF st.files p).isSome = true := by
    refine hterm.reg p ?_
    rw [hq]
    exact List.mem_append_right rest (List.mem_singleton_self p)
  exact processNode_toProcess A fs { st with to_process := rest } p hterm0 hpreg

lemma pushCandidates_target (A : Amalgamator) (fs : FS) (p q : PathT)
    (h : q ∈ pushCandidates A fs p) : fexists fs q = true ∧ q ∉ A.header_files := by
  simp only [pushCandidates] at h
  obtain ⟨l, _, hl⟩ := List.mem_filterMap.mp h
  exact lineTarget_some A fs p l q hl

lemma maxRankOn_ge (fs : FS) (r0 : PathT → Nat) (q : PathT)
    (h : fexists fs q = true) : r0 q ≤ maxRankOn fs r0 := by
  simp only [fexists] at h
  cases hv : fsLookup fs q with
  | none =>
    rw [hv] at h
    cases h
  | some raw =>
    have hmem := fsLookup_mem fs q raw hv
    clear hv h
    induction fs with
    | nil => simp at hmem
    | cons e fs ih =>
      simp only [maxRankOn, List.foldr_cons]
      rcases List.mem_cons.mp hmem with h2 | h2
      · rw [← h2]
        exact le_max_left _ _
      · exact le_trans (ih h2) (le_max_right _ _)

lemma maxLoad_ge (fs : FS) (p : PathT) :
    ((read_file fs p).lines).length ≤ maxLoad fs := by
  simp only [read_file]
  cases hv : fsLookup fs p with
  | none => simp
  | some raw =>
    simp only
    have hmem := fsLookup_mem fs p raw hv
    clear hv
    induction fs with
    | nil => simp at hmem
    | cons e fs ih =>
      simp only [maxLoad, List.foldr_cons]
      rcases List.mem_cons.mp hmem with h2 | h2
      · rw [← h2]
        exact le_max_left _ _
      · exact le_trans (ih h2) (le_max_right _ _)

lemma pushCandidates_length_le (A : Amalgamator) (fs : FS) (p : PathT) :
    (pushCandidates A fs p).length ≤ maxLoad fs :=
  le_trans (List.length_filterMap_le _ _) (maxLoad_ge fs p)

lemma queueWeight_append (fs : FS) (r : PathT → Nat) (l1 l2 : List PathT) :
    queueWeight fs r (l1 ++ l2) = queueWeight fs r l1 + queueWeight fs r l2 := by
  simp [queueWeight]

lemma sum_le_length_mul (l : List Nat) (c : Nat) (h : ∀ x ∈ l, x ≤ c) :
    l.sum ≤ l.length * c := by
  induction l with
  | nil => simp
  | cons a l ih =>
    simp only [List.sum_cons, List.length_cons, Nat.succ_mul]
    have h1 : a ≤ c := h a (List.mem_cons_self a l)
    have h2 : l.sum ≤ l.length * c := ih (fun x hx => h x (List.mem_cons_of_mem a hx))
    omega

lemma queueWeight_push_lt (A : Amalgamator) (fs : FS) (r : PathT → Nat) (p : PathT)
    (hrank : ∀ q ∈ pushCandidates A fs p, r q < r p) :
    queueWeight fs r (pushCandidates A fs p) < (maxLoad fs + 1) ^ (r p + 1) := by
  have hB : 0 < maxLoad fs + 1 := Nat.succ_pos _
  have hpos : 0 < (maxLoad fs + 1) ^ (r p) := Nat.pos_pow_of_pos _ hB
  have hbound : ∀ x ∈ (pushCandidates A fs p).map
      (fun q => (maxLoad fs + 1) ^ (r q + 1)), x ≤ (maxLoad fs + 1) ^ (r p) := by
    intro x hx
    obtain ⟨q, hq, hxq⟩ := List.mem_map.mp hx
    rw [← hxq]
    exact Nat.pow_le_pow_right hB (hrank q hq)
  have h1 : queueWeight fs r (pushCandidates A fs p) ≤
      (pushCandidates A fs p).length * (maxLoad fs + 1) ^ (r p) := by
    have := sum_le_length_mul _ ((maxLoad fs + 1) ^ (r p)) hbound
    simpa [queueWeight] using this
  have h2 : (pushCandidates A fs p).length * (maxLoad fs + 1) ^ (r p) ≤
      maxLoad fs * (maxLoad fs + 1) ^ (r p) :=
    Nat.mul_le_mul_right _ (pushCandidates_length_le A fs p)
  have h3 : maxLoad fs * (maxLoad fs + 1) ^ (r p) <
      (maxLoad fs + 1) * (maxLoad fs + 1) ^ (r p) := by
    exact Nat.mul_lt_mul_of_lt_of_le (Nat.lt_succ_self _) (le_refl _) hpos
  have h4 : (maxLoad fs + 1) * (maxLoad fs + 1) ^ (r p) =
      (maxLoad fs + 1) ^ (r p + 1) := by
    rw [Nat.pow_succ]
    ring
  omega

lemma rank_extend (A : Amalgamator) (fs : FS) (hac : DiscoveryAcyclic A fs) :
    ∃ r : PathT → Nat, ∀ p q, followEdge A fs p q → r q < r p := by
  obtain ⟨r0, h0⟩ := hac
  refine ⟨fun p =>
    if fexists fs p = true ∧ p ∉ A.header_files then r0 p else maxRankOn fs r0 + 1, ?_⟩
  intro p q hpq
  have hq := pushCandidates_target A fs p q hpq
  dsimp only
  rw [if_pos hq]
  by_cases hp : fexists fs p = true ∧ p ∉ A.header_files
  · rw [if_pos hp]
    exact h0 p q hp.1 hp.2 hpq
  · rw [if_neg hp]
    have := maxRankOn_ge fs r0 q hq.1
    omega

lemma discover_loop_term (A : Amalgamator) (fs : FS) (r : PathT → Nat)
    (hrank : ∀ p q, followEdge A fs p q → r q < r p) :
    ∀ (m : Nat) (st : DiscState), DiscTermInv fs st →
      queueWeight fs r st.to_process ≤ m →
      (discover_loop A fs m st).to_process = [] := by
  intro m
  induction m with
  | zero =>
    intro st hterm hw
    cases hq : st.to_process with
    | nil => exact hq
    | cons a l =>
      exfalso
      rw [hq] at hw
      have h1 : 0 < (maxLoad fs + 1) ^ (r a + 1) :=
        Nat.pos_pow_of_pos _ (Nat.succ_pos _)
      simp only [queueWeight, List.map_cons, List.sum_cons] at hw
      omega
  | succ m ih =>
    intro st hterm hw
    simp only [discover_loop]
    by_cases he : st.to_process.isEmpty = true
    · rw [if_pos he]
      exact List.isEmpty_iff.mp he
    · rw [if_neg he]
      have hne : st.to_process ≠ [] := by
        intro hcon
        rw [hcon] at he
        exact he rfl
      obtain ⟨rest, p, hq⟩ : ∃ rest p, st.to_process = rest ++ [p] := by
        rcases List.eq_nil_or_concat' st.to_process with h | ⟨L, b, h⟩
        · exact absurd h hne
        · exact ⟨L, b, h⟩
      obtain ⟨hq2, hterm2⟩ := discover_step_spec A fs st hterm p rest hq
      apply ih (discover_step A fs st) hterm2
      have h1 : queueWeight fs r (pushCandidates A fs p) <
          (maxLoad fs + 1) ^ (r p + 1) :=
        queueWeight_push_lt A fs r p (fun q hqm => hrank p q hqm)
      have h2 : queueWeight fs r st.to_process =
          queueWeight fs r rest + (maxLoad fs + 1) ^ (r p + 1) := by
        rw [hq, queueWeight_append]
        simp [queueWeight]
      rw [hq2, queueWeight_append]
      omega

lemma discover_init_term (fs : FS) (seeds : List PathT) :
    DiscTermInv fs (discover_init fs seeds) := by
  refine ⟨rfl, ?_, ?_⟩
  · intro q hq
    rw [lookupF_isSome_iff]
    simp only [discover_init, List.map_map]
    simpa using hq
  · intro e he
    simp only [discover_init] at he
    obtain ⟨q, _, hq⟩ := List.mem_map.mp he
    rw [← hq]

lemma discover_loop_stable (A : Amalgamator) (fs : FS) :
    ∀ (k : Nat) (st : DiscState), st.to_process = [] → discover_loop A fs k st = st := by
  intro k
  induction k with
  | zero => intro st _; rfl
  | succ k ih =>
    intro st h
    simp only [discover_loop]
    rw [if_pos (by rw [h]; rfl)]

lemma discover_loop_add (A : Amalgamator) (fs : FS) :
    ∀ (a b : Nat) (st : DiscState),
      discover_loop A fs (a + b) st = discover_loop A fs b (discover_loop A fs a st) := by
  intro a
  induction a with
  | zero =>
    intro b st
    rw [Nat.zero_add]
    rfl
  | succ a ih =>
    intro b st
    by_cases he : st.to_process.isEmpty = true
    · have h0 : st.to_process = [] := List.isEmpty_iff.mp he
      rw [discover_loop_stable A fs (a + 1 + b) st h0,
        discover_loop_stable A fs (a + 1) st h0,
        discover_loop_stable A fs b st h0]
    · have h1 : a + 1 + b = (a + b) + 1 := by omega
      rw [h1]
      simp only [discover_loop]
      rw [if_neg he, if_neg he]
      exact ih b (discover_step A fs st)

/-- Claim C5: for every finite filesystem whose local-include graph
restricted to existing, non-excluded files is acyclic, the discovery
work-list loop terminates: some number of iterations reaches an empty
queue, and every further iteration leaves the state unchanged (no new
files remain to be discovered). -/
theorem discover_files_terminates (A : Amalgamator) (fs : FS) (seeds : List PathT)
    (hac : DiscoveryAcyclic A fs) :
    ∃ n, (discover_loop A fs n (discover_init fs seeds)).to_process = [] ∧
      ∀ m, n ≤ m →
        discover_loop A fs m (discover_init fs seeds) =
          discover_loop A fs n (discover_init fs seeds) := by
  obtain ⟨r, hr⟩ := rank_extend A fs hac
  refine ⟨queueWeight fs r seeds, ?_, ?_⟩
  · exact discover_loop_term A fs r hr (queueWeight fs r seeds) (discover_init fs seeds)
      (discover_init_term fs seeds) (le_refl _)
  · intro m hm
    have hempty : (discover_loop A fs (queueWeight fs r seeds)
        (discover_init fs seeds)).to_process = [] :=
      discover_loop_term A fs r hr (queueWeight fs r seeds) (discover_init fs seeds)
        (discover_init_term fs seeds) (le_refl _)
    have hsum : m = queueWeight fs r seeds + (m - queueWeight fs r seeds) := by omega
    rw [hsum, discover_loop_add]
    exact discover_loop_stable A fs _ _ hempty

/-- Witness for claim C5: on a filesystem holding a single source file
with no local includes, the include graph is trivially acyclic and the
loop reaches an empty queue. -/
theorem discover_files_terminates_witness :
    DiscoveryAcyclic projW fsTermW ∧
      ∃ n, (discover_loop projW fsTermW n
          (discover_init fsTermW ["/p/src/solo.c".data])).to_process = [] ∧
        ∀ m, n ≤ m →
          discover_loop projW fsTermW m (discover_init fsTermW ["/p/src/solo.c".data]) =
            discover_loop projW fsTermW n
              (discover_init fsTermW ["/p/src/solo.c".data]) := by
  have hac : DiscoveryAcyclic projW fsTermW := by
    refine ⟨fun _ => 0, ?_⟩
    intro p q hex hhd hfe
    exfalso
    have hp : p = "/p/src/solo.c".data := by
      by_cases h : ("/p/src/solo.c".data : PathT) = p
      · exact h.symm
      · exfalso
        simp [fexists, fsTermW, fsLookup, if_neg h] at hex
    subst hp
    have hpush : pushCandidates projW fsTermW "/p/src/solo.c".data = [] := by decide
    rw [followEdge, hpush] at hfe
    cases hfe
  exact ⟨hac,
    discover_files_terminates projW fsTermW ["/p/src/solo.c".data] hac⟩

/-- Claim C9: a seed path that does not exist on disk does not abort the
discovery: read_file catches the missing-file condition, logs its
warning, and returns a unit with empty content and no dependencies, and
every seed (this one included) is still registered after any number of
loop iterations, so discovery proceeds with the remaining seeds. -/
theorem read_file_missing_seed (fs : FS) (p : PathT) (h : fexists fs p = false) :
    read_file fs p = { path := p, lines := [], dependencies := [] } ∧
      read_file_warns fs p = true ∧
      ∀ (A : Amalgamator) (seeds : List PathT) (fuel : Nat), ∀ q ∈ seeds,
        (lookupF (discover_loop A fs fuel (discover_init fs seeds)).files q).isSome
          = true := by
  have hnone : fsLookup fs p = none := by
    simp only [fexists] at h
    cases hv : fsLookup fs p
    · rfl
    · rw [hv] at h
      cases h
  refine ⟨?_, ?_, ?_⟩
  · simp [read_file, hnone]
  · simp [read_file_warns, hnone]
  · intro A seeds fuel q hq
    refine discover_loop_files_isSome A fs fuel (discover_init fs seeds) q ?_
    rw [lookupF_isSome_iff]
    simp only [discover_init, List.map_map]
    simpa using hq

/-- Witness for claim C9: on a filesystem holding only one file, the
other seed is missing, is processed as an empty unit with a warning, and
both seeds are registered after the loop runs. -/
theorem read_file_missing_seed_witness :
    fexists fsMism "/p/src/gone.c".data = false ∧
      read_file fsMism "/p/src/gone.c".data =
        { path := "/p/src/gone.c".data, lines := [], dependencies := [] } ∧
      read_file_warns fsMism "/p/src/gone.c".data = true ∧
      (lookupF
          (discover_loop projW fsMism 5
            (discover_init fsMism ["/p/src/gone.c".data, "/p/src/other.c".data])).files
          "/p/src/gone.c".data).isSome = true :=
  ⟨by decide,
    (read_file_missing_seed fsMism "/p/src/gone.c".data (by decide)).1,
    (read_file_missing_seed fsMism "/p/src/gone.c".data (by decide)).2.1,
    (read_file_missing_seed fsMism "/p/src/gone.c".data (by decide)).2.2 projW
      ["/p/src/gone.c".data, "/p/src/other.c".data] 5 "/p/src/gone.c".data
      (by decide)⟩

/-- Claim C3: for header-kind input, strip_include_guards fails (with the
MalformedGuard family and nothing else) exactly when no line matches the
ifndef pattern with a valid guard name, or the line immediately after the
first such line is not the matching define line, or the last non-blank
line does not begin with endif; and a failure on any file of the fixed
public-header set propagates uncaught through amalgamate, which then
produces no output pair. -/
theorem strip_include_guards_failure_iff (lines : List Line) (fp : PathT)
    (hfp : endsWithL ['.', 'h'] fp = true) :
    (exceptOk (strip_include_guards lines fp) = false ↔ GuardFailCond lines) ∧
      ∀ (A : Amalgamator) (fs : FS) (fuel : Nat),
        (∃ hp ∈ A.header_files,
          exceptOk (strip_include_guards (read_file fs hp).lines hp) = false) →
        exceptOk (amalgamate A fs fuel) = false := by
  constructor
  · rcases strip_cases lines fp hfp with ⟨hok, hnc⟩ | ⟨herr, hc⟩
    · constructor
      · intro hfalse
        rw [hok] at hfalse
        cases hfalse
      · intro hcond
        exact absurd hcond hnc
    · exact ⟨fun _ => hc, fun _ => herr⟩
  · intro A fs fuel h
    exact amalgamate_error_of_public A fs fuel h

/-- Witness for claim C3: a header with mismatched guard names fails, and
an amalgamation whose fixed public header config.h is that malformed file
aborts with no output. -/
theorem strip_include_guards_failure_iff_witness :
    exceptOk (strip_include_guards mismLines "x.h".data) = false ∧
      exceptOk (amalgamate projW fsMism 3) = false :=
  ⟨(strip_include_guards_failure_iff mismLines "x.h".data (by decide)).1.mpr
      (Or.inr (Or.inl ⟨"X_H".data, ["#define Y_H".data, "#endif".data], by decide,
        fun dl tl heq => by cases heq; decide⟩)),
    (strip_include_guards_failure_iff mismLines "x.h".data (by decide)).2 projW fsMism 3
      ⟨"/p/include/semi/config.h".data, by decide, by decide⟩⟩

/-- Claim C7: remove_local_includes is total (a plain function of its
input) and a pure filter — the output keeps exactly the non-matching
lines, unchanged and in order (a sublist of the input), no surviving line
matches the local-include pattern, and the kept and removed counts sum to
the input count; lines with angle-bracket system includes do not match
and pass through. -/
theorem remove_local_includes_filter (lines : List Line) :
    (remove_local_includes lines).length +
        (lines.filter (fun l => (matchLocalInclude l).isSome)).length = lines.length ∧
      (∀ l ∈ remove_local_includes lines, matchLocalInclude l = none) ∧
      (remove_local_includes lines).Sublist lines ∧
      (∀ l ∈ lines, matchLocalInclude l = none → l ∈ remove_local_includes lines) := by
  refine ⟨?_, ?_, ?_, ?_⟩
  · induction lines with
    | nil => simp [remove_local_includes]
    | cons a lines ih =>
      simp only [remove_local_includes, List.filter_cons] at ih ⊢
      cases hm : matchLocalInclude a with
      | none => simp [hm, Nat.succ_add]; omega
      | some ip => simp [hm]; omega
  · intro l hl
    have := List.mem_filter.mp hl
    exact Option.isNone_iff_eq_none.mp this.2
  · exact List.filter_sublist lines
  · intro l hl hm
    exact List.mem_filter.mpr ⟨hl, by simp [hm]⟩

/-- Witness for claim C7: on a concrete list holding a local include, a
system include and a plain line, no surviving line matches and the system
include passes through. -/
theorem remove_local_includes_filter_witness :
    (∀ l ∈ remove_local_includes demoLines, matchLocalInclude l = none) ∧
      "#include <stdio.h>".data ∈ remove_local_includes demoLines :=
  ⟨(remove_local_includes_filter demoLines).2.1,
    (remove_local_includes_filter demoLines).2.2.2 _ (by decide) (by decide)⟩

/-- Claim C10: every content line stored in a File Unit at load time is
right-stripped, a whitespace-only line counts as blank in the discarded
leading block, and the text transforms emit only lines drawn from their
input, so no artifact line that originates from an input file carries
trailing whitespace. -/
theorem load_lines_rstripped :
    (∀ raw : List Line, ∀ l ∈ loadLines raw, rstripLine l = l) ∧
      (∀ pre rest : List Line,
        (∀ l ∈ pre, rstripLine l ∈ COPYRIGHT_LINES ∨ rstripLine l = []) →
        loadLines (pre ++ rest) = loadLines rest) ∧
      (∀ ls : List Line, ∀ l ∈ remove_local_includes ls, l ∈ ls) ∧
      (∀ ls out : List Line, ∀ fp : PathT,
        strip_include_guards ls fp = Except.ok out → ∀ l ∈ out, l ∈ ls) := by
  refine ⟨?_, ?_, ?_, ?_⟩
  · intro raw
    exact loadGo_rstripped true raw
  · intro pre rest h
    exact loadGo_skip pre rest h
  · intro ls l hl
    exact (List.mem_filter.mp hl).1
  · intro ls out fp h
    exact strip_ok_sub ls out fp h

/-- Witness for claim C10: concrete trailing-whitespace lines are stored
stripped, a banner-plus-blank leading block is discarded, and the
transforms only keep input lines. -/
theorem load_lines_rstripped_witness :
    (∀ l ∈ loadLines demoRaw, rstripLine l = l) ∧
      loadLines (demoBanner ++ demoRaw) = loadLines demoRaw ∧
      (∀ l ∈ remove_local_includes demoLines, l ∈ demoLines) ∧
      (∀ l ∈ demoBody, l ∈ demoHeader) :=
  ⟨load_lines_rstripped.1 demoRaw,
    load_lines_rstripped.2.1 demoBanner demoRaw (by decide),
    load_lines_rstripped.2.2.1 demoLines,
    load_lines_rstripped.2.2.2 demoHeader demoBody "x.h".data rfl⟩

end Amalgamate
